import Mathlib

/-!
A verification development for the neighborhood-classifier core
(ROI parsing, spatial neighborhoods, normalization, histogram and
class-balanced sampling probabilities).

The Python sources are embedded shallowly:
* Python floats become `ℚ` (the operations the core performs on them are
  exact field operations, so `ℚ` models them faithfully up to rounding);
* Python ints become `ℤ` (or `ℕ` for counts);
* Python dicts become insertion-ordered association lists;
* code that can raise becomes `Except PyError` / `Option`;
* `list[i] = v` with Python's negative-index wrap-around becomes `pyListSet`.
-/

namespace NClass

deriving instance DecidableEq for Except

/-- Exceptions the embedded code can raise, plus the error names the
documentation postulates (`degenerateBandError`, `alreadyNormalizedError`,
`notNormalizedError`); the latter are never produced by any embedded
function, which lets us state claims that mention them. -/
inductive PyError where
  | keyError (k : String)
  | zeroDivisionError
  | attributeError (msg : String)
  | indexError
  | valueError
  | assertionError
  | exception (msg : String)
  | notImplementedError
  | nameError (v : String)
  | degenerateBandError (band : ℕ)
  | alreadyNormalizedError
  | notNormalizedError
deriving Repr, DecidableEq

/-- `Point` from RegionOfInterest/region.py: the constructor coerces
`identity`, `x`, `y` with `int(...)`, the rest stay floats. -/
structure Point where
  identity : ℤ
  X : ℤ
  Y : ℤ
  map_X : ℚ
  map_Y : ℚ
  latitude : ℚ
  longitude : ℚ
  bands : List ℚ
deriving Repr, DecidableEq

/-- `ROI` from RegionOfInterest/region.py.  `num_points` is the count the
file header declared; `points` is what `add_point` accumulated. -/
structure ROI where
  name : String
  sub_name : String
  rgb : List ℚ
  num_points : ℕ
  points : List Point
deriving Repr, DecidableEq

/-! ### Python dicts as insertion-ordered association lists -/

/-- Dict lookup `d[k]` returning `none` when the key is absent. -/
def dGet {α : Type} : List (String × α) → String → Option α
  | [], _ => none
  | (k', v) :: rest, k => if k' = k then some v else dGet rest k

/-- Dict assignment `d[k] = v`: updates in place, or appends (Python dicts
keep insertion order). -/
def dSet {α : Type} : List (String × α) → String → α → List (String × α)
  | [], k, v => [(k, v)]
  | (k', v') :: rest, k, v =>
      if k' = k then (k, v) :: rest else (k', v') :: dSet rest k v

/-- Dict lookup that raises `KeyError` like Python's `d[k]`. -/
def dGetE {α : Type} (d : List (String × α)) (k : String) : Except PyError α :=
  match dGet d k with
  | some v => .ok v
  | none => .error (.keyError k)

/-- `d[k] += v` on an int-valued dict: `KeyError` when `k` is absent. -/
def dAdd (d : List (String × ℕ)) (k : String) (v : ℕ) :
    Except PyError (List (String × ℕ)) := do
  let c ← dGetE d k
  .ok (dSet d k (c + v))

/-- Sum of a dict's values (`sum(d.values())`). -/
def sumVals (d : List (String × ℕ)) : ℕ := (d.map Prod.snd).sum

/-- Python `int(q)` on a float: truncation toward zero. -/
def pyTrunc (q : ℚ) : ℤ := if q < 0 then -((-q).floor) else q.floor

/-! ### Common/common.py: `get_indices`, `get_neighbors` -/

/-- `get_indices` (Common/common.py line 31):
`num_neighbors - (max_x - x) - 1, num_neighbors - (max_y - y) - 1`. -/
def get_indices (max_x x max_y y : ℤ) (num_neighbors : ℕ) : ℤ × ℤ :=
  ((num_neighbors : ℤ) - (max_x - x) - 1, (num_neighbors : ℤ) - (max_y - y) - 1)

/-- Python index resolution: a negative index has the length added once. -/
def pyWrap (n : ℕ) (i : ℤ) : ℤ := if i < 0 then i + n else i

/-- Python `l[i] = v`: the index is wrapped once; if the result is still
out of range an `IndexError` is raised (`none`). -/
def pyListSet {α : Type} (l : List α) (i : ℤ) (v : α) : Option (List α) :=
  if 0 ≤ pyWrap l.length i ∧ pyWrap l.length i < (l.length : ℤ) then
    some (l.set (pyWrap l.length i).toNat v)
  else none

/-- The scan loop of `get_neighbors` with `use_list=True`: every region
point inside the window box is placed at linear index
`index_y * num_neighbors + index_x`. -/
def neighborsLoop (k : ℕ) (maxX minX maxY minY : ℤ) :
    List Point → List (Option Point) → Option (List (Option Point))
  | [], pts => some pts
  | p :: rest, pts =>
      if minX ≤ p.X ∧ p.X ≤ maxX ∧ minY ≤ p.Y ∧ p.Y ≤ maxY then
        let ij := get_indices maxX p.X maxY p.Y k
        match pyListSet pts (ij.2 * k + ij.1) (some p) with
        | some pts2 => neighborsLoop k maxX minX maxY minY rest pts2
        | none => none
      else neighborsLoop k maxX minX maxY minY rest pts

/-- `get_neighbors` (Common/common.py lines 133-165) with `use_list=True`:
a flat list of `num_neighbors ** 2` slots initialised to `None`;
`half = int(num_neighbors / 2)`; the box spans
`[x - half, x + half] × [y - half, y + half]`. -/
def get_neighbors_list (point : Point) (point_list : List Point) (k : ℕ) :
    Option (List (Option Point)) :=
  let half : ℤ := ((k / 2 : ℕ) : ℤ)
  let x := point.X
  let y := point.Y
  neighborsLoop k (x + half) (x - half) (y + half) (y - half) point_list
    (List.replicate (k * k) none)

/-- Python `rows[iy][ix] = v` on a list-of-lists: outer indexing then inner
assignment, each with the one-pass negative wrap of `pyListSet`. -/
def pyMatrixSet {α : Type} (rows : List (List α)) (iy ix : ℤ) (v : α) :
    Option (List (List α)) :=
  let jy : ℤ := pyWrap rows.length iy
  if 0 ≤ jy ∧ jy < (rows.length : ℤ) then
    match rows.get? jy.toNat with
    | some row =>
        match pyListSet row ix v with
        | some row2 => some (rows.set jy.toNat row2)
        | none => none
    | none => none
  else none

/-- The scan loop of `get_neighbors` with `use_list=False` (the default):
`points[index_y][index_x] = p`. -/
def neighborsLoopMatrix (k : ℕ) (maxX minX maxY minY : ℤ) :
    List Point → List (List (Option Point)) → Option (List (List (Option Point)))
  | [], pts => some pts
  | p :: rest, pts =>
      if minX ≤ p.X ∧ p.X ≤ maxX ∧ minY ≤ p.Y ∧ p.Y ≤ maxY then
        let ij := get_indices maxX p.X maxY p.Y k
        match pyMatrixSet pts ij.2 ij.1 (some p) with
        | some pts2 => neighborsLoopMatrix k maxX minX maxY minY rest pts2
        | none => none
      else neighborsLoopMatrix k maxX minX maxY minY rest pts

/-- `get_neighbors` with `use_list=False`: a `num_neighbors × num_neighbors`
matrix of `None` slots filled in place. -/
def get_neighbors_matrix (point : Point) (point_list : List Point) (k : ℕ) :
    Option (List (List (Option Point))) :=
  let half : ℤ := ((k / 2 : ℕ) : ℤ)
  let x := point.X
  let y := point.Y
  neighborsLoopMatrix k (x + half) (x - half) (y + half) (y - half) point_list
    (List.replicate k (List.replicate k none))

/-! ### Common/common.py: `get_histogram` -/

/-- The initialisation loop of `get_histogram`:
`for target in targets: histogram[target] = 0`. -/
def initHist (targets : List String) : List (String × ℕ) :=
  targets.foldl (fun h t => dSet h t 0) []

/-- One iteration of the `for roi in roi_list` loop of `get_histogram`.
`roi.name is 'background'` is CPython identity on strings; for the
count-update performed here it decides exactly as equality does (both
branches add to the same key), so it is embedded as equality. -/
def histStep (targets : List String) (count_points : Bool)
    (h : List (String × ℕ)) (roi : ROI) : Except PyError (List (String × ℕ)) :=
  if roi.name = "background" ∨ roi.name ∉ targets then
    (if count_points then dAdd h "background" roi.num_points
     else dAdd h "background" 1)
  else
    (if count_points then dAdd h roi.name roi.num_points
     else dAdd h "background" 1)

/-- The `for roi in roi_list` loop of `get_histogram`; a failing
`histogram[...] += ...` (KeyError) propagates. -/
def histLoop (targets : List String) (count_points : Bool) :
    List ROI → List (String × ℕ) → Except PyError (List (String × ℕ))
  | [], h => .ok h
  | roi :: rest, h =>
      match histStep targets count_points h roi with
      | .ok h2 => histLoop targets count_points rest h2
      | .error e => .error e

/-- `get_histogram` (Common/common.py lines 65-96). -/
def get_histogram (roi_list : List ROI) (targets : List String)
    (count_points : Bool) : Except PyError (List (String × ℕ)) :=
  histLoop targets count_points roi_list (initHist targets)

/-! ### RegionOfInterest/regions_of_interest.py: the `RegionsOfInterest` holder -/

/-- The state of a `RegionsOfInterest` object that the normalization and
histogram claims touch.  `rois` is the name → sub-name → ROI dict of dicts. -/
structure RegionsOfInterest where
  rois : List (String × List (String × ROI))
  num_bands : ℕ
  minimums : List ℚ
  maximums : List ℚ
  means : List ℚ
  standard_deviations : List ℚ
  is_normalized : Bool
deriving Repr, DecidableEq

/-- `get_all` (lines 325-339): flatten the dict of dicts in key order. -/
def get_all (ds : RegionsOfInterest) : List ROI :=
  ds.rois.foldr (fun kv acc => kv.2.map Prod.snd ++ acc) []

/-- `is_min_max` (Common/common.py line 368). -/
def is_min_max (s : String) : Bool :=
  s = "min-max" || s = "max-min" || s = "mm"

/-- `is_gaussian` (Common/common.py line 357). -/
def is_gaussian (s : String) : Bool :=
  s = "gaussian" || s = "gauss" || s = "g"

/-- Python `l[i]` read: `IndexError` on out of range (the code never indexes
with a negative literal here, so no wrap case arises for in-range loops). -/
def listGetE (l : List ℚ) (i : ℕ) : Except PyError ℚ :=
  match l.get? i with
  | some v => .ok v
  | none => .error .indexError

/-- One band update of `_normalize_min_max`:
`(point.bands[i] - min_param[i]) / (max_param[i] - min_param[i])`, raising
`ZeroDivisionError` when `max_param[i] == min_param[i]` (CPython raises on
float division by zero rather than producing inf/NaN). -/
def normBandMinMax (mins maxs bands : List ℚ) (i : ℕ) : Except PyError ℚ := do
  let b ← listGetE bands i
  let mn ← listGetE mins i
  let mx ← listGetE maxs i
  if mx - mn = 0 then .error .zeroDivisionError else .ok ((b - mn) / (mx - mn))

/-- One band update of `_normalize_gaussian`:
`(point.bands[i] - mean_param[i]) / std_dev_param[i]`. -/
def normBandGauss (means stds bands : List ℚ) (i : ℕ) : Except PyError ℚ := do
  let b ← listGetE bands i
  let m ← listGetE means i
  let s ← listGetE stds i
  if s = 0 then .error .zeroDivisionError else .ok ((b - m) / s)

/-- The `for i in range(self.num_bands)` loop over one point's bands,
updating `point.bands[i]` in place; `i` is the next index, `n` the number of
iterations left. -/
def normBandsGo (f : List ℚ → ℕ → Except PyError ℚ) :
    List ℚ → ℕ → ℕ → Except PyError (List ℚ)
  | bands, _, 0 => .ok bands
  | bands, i, n + 1 => do
      let v ← f bands i
      normBandsGo f (bands.set i v) (i + 1) n

/-- Normalize one point (min-max): all `num_bands` band slots rewritten. -/
def normPointMinMax (mins maxs : List ℚ) (nb : ℕ) (p : Point) :
    Except PyError Point := do
  let bands ← normBandsGo (normBandMinMax mins maxs) p.bands 0 nb
  .ok { p with bands := bands }

/-- Normalize one point (gaussian). -/
def normPointGauss (means stds : List ℚ) (nb : ℕ) (p : Point) :
    Except PyError Point := do
  let bands ← normBandsGo (normBandGauss means stds) p.bands 0 nb
  .ok { p with bands := bands }

/-- Rewrite every point of every ROI of the dataset with `f`, in the
iteration order of `get_all`. -/
def mapPointsM (f : Point → Except PyError Point) (ds : RegionsOfInterest) :
    Except PyError (List (String × List (String × ROI))) :=
  ds.rois.mapM (fun kv => do
    let subs ← kv.2.mapM (fun sv => do
      let pts ← sv.2.points.mapM f
      pure (sv.1, { sv.2 with points := pts }))
    pure (kv.1, subs))

/-- `_normalize_min_max` (lines 270-288).  The guard
`if not len(min_param) == self.num_bands and len(max_param) == self.num_bands`
keeps the source's operator precedence: it raises only when the minimums
length differs from `num_bands` while the maximums length matches. -/
def normalizeMinMax (ds : RegionsOfInterest) : Except PyError RegionsOfInterest := do
  if ¬ (ds.minimums.length = ds.num_bands) ∧ ds.maximums.length = ds.num_bands then
    .error (.exception "The input parameters does not match the bands in the ROIs")
  else do
    let rois ← mapPointsM (normPointMinMax ds.minimums ds.maximums ds.num_bands) ds
    .ok { ds with rois := rois, is_normalized := true }

/-- `_normalize_gaussian` (lines 250-268), same guard shape. -/
def normalizeGauss (ds : RegionsOfInterest) : Except PyError RegionsOfInterest := do
  if ¬ (ds.means.length = ds.num_bands) ∧ ds.standard_deviations.length = ds.num_bands then
    .error (.exception "The input parameters does not match the bands in the ROIs")
  else do
    let rois ← mapPointsM (normPointGauss ds.means ds.standard_deviations ds.num_bands) ds
    .ok { ds with rois := rois, is_normalized := true }

/-- `normalize` (lines 230-248).  The `assert ... is not None` checks cannot
fire (the fields are always lists after construction); an unrecognized mode
falls through and the method returns with the dataset untouched. -/
def normalize (ds : RegionsOfInterest) (mode : String) :
    Except PyError RegionsOfInterest :=
  if is_min_max mode then normalizeMinMax ds
  else if is_gaussian mode then normalizeGauss ds
  else .ok ds

/-- `_absolutize_min_max` (lines 299-310), embedded as state-plus-raised
exception so that the state at the time of the exception is explicit.
After the `is_normalized` guard the code runs `for roi in self.rois:` —
iterating a dict yields its KEYS, so `roi` is bound to a region-name
string, and `roi.points` raises `AttributeError` on the first key before
any point is touched.  Only an empty `rois` dict completes the loop. -/
def absolutizeMinMaxPair (ds : RegionsOfInterest) :
    RegionsOfInterest × Option PyError :=
  if ds.is_normalized = false then
    (ds, some (.exception "The data has to be normalized, if you want to revert the normalization!"))
  else
    match ds.rois with
    | [] => (ds, none)
    | _ :: _ => (ds, some (.attributeError "str object has no attribute points"))

/-- `_abolutize_gaussian` (lines 312-323): identical structure, identical
dict-iteration slip. -/
def absolutizeGaussPair (ds : RegionsOfInterest) :
    RegionsOfInterest × Option PyError :=
  if ds.is_normalized = false then
    (ds, some (.exception "The data has to be normalized, if you want to revert the normalization!"))
  else
    match ds.rois with
    | [] => (ds, none)
    | _ :: _ => (ds, some (.attributeError "str object has no attribute points"))

/-- `absolutize` (lines 290-297): mode dispatch by literal comparison;
`self.is_normalized = False` runs only when the delegate returned. -/
def absolutizePair (ds : RegionsOfInterest) (mode : String) :
    RegionsOfInterest × Option PyError :=
  if mode = "min-max" ∨ mode = "max-min" then
    match absolutizeMinMaxPair ds with
    | (ds2, none) => ({ ds2 with is_normalized := false }, none)
    | (ds2, some e) => (ds2, some e)
  else if mode = "gaussian" ∨ mode = "gauss" then
    match absolutizeGaussPair ds with
    | (ds2, none) => ({ ds2 with is_normalized := false }, none)
    | (ds2, some e) => (ds2, some e)
  else
    (ds, some .notImplementedError)

/-! ### Common/common.py: `extract_name`
Strings are modelled as `List Char` here so the splitting can be reasoned
about directly. -/

/-- Python `s.split()` (no argument): split on whitespace runs, dropping
empty tokens. -/
def wsTokens : List Char → List (List Char)
  | [] => []
  | c :: rest =>
      if c.isWhitespace then wsTokens rest
      else
        match wsTokens rest with
        | [] => [[c]]
        | t :: ts =>
            match rest with
            | [] => [[c]]
            | d :: _ => if d.isWhitespace then [c] :: t :: ts else (c :: t) :: ts

/-- Python `s.split('_')`: split on every underscore, keeping empty pieces. -/
def underscoreSplit : List Char → List (List Char)
  | [] => [[]]
  | c :: rest =>
      if c = '_' then [] :: underscoreSplit rest
      else
        match underscoreSplit rest with
        | [] => [[c]]
        | g :: gs => (c :: g) :: gs

/-- `re.split('\\d+' as a capture group, s)`: alternating maximal
non-digit / digit chunks, the digit groups kept because the pattern is a
capture group; a leading or trailing digit run contributes an empty
boundary chunk. -/
def digitSplit (l : List Char) : List (List Char) :=
  let pre := l.takeWhile (fun c => !c.isDigit)
  match h : l.dropWhile (fun c => !c.isDigit) with
  | [] => [pre]
  | d :: tail =>
      pre :: (d :: tail.takeWhile Char.isDigit) ::
        digitSplit (tail.dropWhile Char.isDigit)
termination_by l.length
decreasing_by
  have h1 : (l.dropWhile fun c => !c.isDigit).length ≤ l.length :=
    (List.dropWhile_sublist _).length_le
  rw [h] at h1
  have h2 : (tail.dropWhile Char.isDigit).length ≤ tail.length :=
    (List.dropWhile_sublist _).length_le
  simp only [List.length_cons] at h1
  omega

/-- The part of `extract_name` operating on the last token: split on
underscores, take pieces 0 and 1; with fewer than two pieces fall back to
the digit split and take its pieces 0 and 1 (an `IndexError` when the
token has no digits either). -/
def extract_from_token (full : List Char) : Except PyError (List Char × List Char) :=
  match underscoreSplit full with
  | p0 :: p1 :: _ => .ok (p0, p1)
  | _ =>
      match digitSplit full with
      | f0 :: f1 :: _ => .ok (f0, f1)
      | _ => .error .indexError

/-- `extract_name` (Common/common.py lines 112-130): take the last
whitespace token of the line and split it into name and sub-name. -/
def extract_name (line : List Char) : Except PyError (List Char × List Char) :=
  match (wsTokens line).getLast? with
  | none => .error .indexError
  | some full => extract_from_token full

/-! ### Common/data_management.py: `_read_spectral_data`
The spectral section of the file is modelled as the list of its lines, each
already split into float tokens; a blank line is `[]`.  `readline()` past
the end of the data never terminates the skip loop (it returns `""`
forever), so running out of lines is modelled as failure. -/

/-- The record-fetch step: `line = datafile.readline()` plus the
`while line == "" ...` blank-skipping loop. -/
def nextRecord : List (List ℚ) → Option (List ℚ × List (List ℚ))
  | [] => none
  | [] :: rest => nextRecord rest
  | row :: rest => some (row, rest)

/-- Build a `Point` from one record:
`[id, X, Y, map_X, map_Y, latitude, longitude, band_1 ..]`, the first three
cast with `int(...)`; fewer than seven tokens raises `IndexError`. -/
def mkPoint (s : List ℚ) : Option Point :=
  match s with
  | a :: b :: c :: d :: e :: f :: g :: rest =>
      some { identity := pyTrunc a, X := pyTrunc b, Y := pyTrunc c,
             map_X := d, map_Y := e, latitude := f, longitude := g,
             bands := rest }
  | _ => none

/-- The `for i in range(roi.num_points)` loop: read `n` records, returning
the points, the bands of the last record read (the loop variable `bands`
survives the loop in Python), and the remaining lines. -/
def readPoints (file : List (List ℚ)) :
    ℕ → Option (List Point × Option (List ℚ) × List (List ℚ))
  | 0 => some ([], none, file)
  | n + 1 => do
      let (row, rest) ← nextRecord file
      let p ← mkPoint row
      let (ps, lb, rest2) ← readPoints rest n
      some (p :: ps, some (lb.getD (row.drop 7)), rest2)

/-- The `for roi in rois` loop: each ROI consumes its declared
`num_points` records via `add_point` (append). -/
def readAllRegions :
    List ROI → List (List ℚ) → Option (List ℚ) →
    Option (List ROI × Option (List ℚ) × List (List ℚ))
  | [], file, lb => some ([], lb, file)
  | roi :: rest, file, lb => do
      let (ps, lb2, file2) ← readPoints file roi.num_points
      let (rois2, lb3, file3) ← readAllRegions rest file2 (lb2.orElse (fun _ => lb))
      some ({ roi with points := roi.points ++ ps } :: rois2, lb3, file3)

/-- `res_rois[roi.name][roi.sub_name] = roi`, creating the inner dict when
the name is new (an existing (name, sub-name) entry is overwritten). -/
def dSet2 (d : List (String × List (String × ROI))) (roi : ROI) :
    List (String × List (String × ROI)) :=
  match dGet d roi.name with
  | some inner => dSet d roi.name (dSet inner roi.sub_name roi)
  | none => dSet d roi.name [(roi.sub_name, roi)]

/-- `_read_spectral_data` (Common/data_management.py lines 177-216):
fills every ROI's points, regroups them into the name → sub-name dict, and
sets `results['num_bands'] = len(bands)` from the LAST record read; if no
record was ever read the name `bands` is unbound (`NameError`). -/
def read_spectral_data (rois : List ROI) (file : List (List ℚ)) :
    Option (List (String × List (String × ROI)) × ℕ) := do
  let (rois2, lb, _) ← readAllRegions rois file none
  let lastBands ← lb
  let grouped := rois2.foldl dSet2 []
  some (grouped, lastBands.length)

/-! ### Common/data_management.py: `_find_feasible_sizes` and the
probability derivation of `_load_limited_data` -/

/-- A `for`-loop that builds a list, short-circuiting on a raised
exception (Python `[f(k) for k in keys]` / append loops). -/
def mapME {α β : Type} (f : α → Except PyError β) : List α → Except PyError (List β)
  | [] => .ok []
  | a :: as => do
      let b ← f a
      let bs ← mapME f as
      .ok (b :: bs)

/-- A `for`-loop threading an accumulator, short-circuiting on a raised
exception. -/
def foldME {α β : Type} (f : β → α → Except PyError β) :
    List α → β → Except PyError β
  | [], b => .ok b
  | a :: as, b => do
      let b2 ← f b a
      foldME f as b2

/-- Python `s.lower()` (ASCII): lower-case every character. -/
def pyLower (s : String) : String := String.mk (s.data.map Char.toLower)

/-- Python `min(list)` of ints: `ValueError` on an empty list. -/
def pyMin (l : List ℤ) : Except PyError ℤ :=
  match l.min? with
  | some m => .ok m
  | none => .error .valueError

/-- `_find_feasible_sizes` (lines 454-484).  `targets_background_ratio` is
a dict, so `get_histogram` iterates its keys; afterwards
`int(histogram[key] / ratio[key])` is collected per key, the minimum taken,
and `num_pixels[key] = int(ratio[key] * minimum)` computed.  The final
warning loop divides `num_pixels[key] / num_pixels['background']`, which
raises `KeyError` / `ZeroDivisionError` when `'background'` is absent or
its feasible size is zero (the warning itself has no effect on the
result). -/
def find_feasible_sizes (roi_list : List ROI)
    (tbRatios : List (String × ℚ)) : Except PyError (List (String × ℤ)) := do
  let hist ← get_histogram roi_list (tbRatios.map Prod.fst) true
  let keys := hist.map Prod.fst
  let background_pixels ← mapME (fun k => do
    let h ← dGetE hist k
    let r ← dGetE tbRatios k
    if r = 0 then .error .zeroDivisionError
    else .ok (pyTrunc ((h : ℚ) / r))) keys
  let target_background_pixels ← pyMin background_pixels
  let num_pixels ← foldME (fun np k => do
    let r ← dGetE tbRatios k
    .ok (dSet np k (pyTrunc (r * (target_background_pixels : ℚ))))) keys []
  match keys with
  | [] => .ok num_pixels
  | _ :: _ => do
      let bg ← dGetE num_pixels "background"
      if bg = 0 then .error .zeroDivisionError
      else .ok num_pixels

/-- The probability-derivation part of `_load_limited_data` (lines
292-316): the assert on equal lengths, the original histogram, the
feasible sizes, `background_probability`, and per-target
`prob = targets_to_background[target] / background_probability` clamped
into `[0, 1]` by the `if prob > 1 / elif prob > 0 / else` chain.  (The
remainder of the function draws the random samples and is not part of the
probability derivation.) -/
def load_limited_probabilities (roi_list : List ROI) (targets : List String)
    (tbRatios : List (String × ℚ)) : Except PyError (List (String × ℚ)) := do
  if targets.length ≠ tbRatios.length then .error .assertionError
  else do
    let orig ← get_histogram roi_list targets true
    let feasible ← find_feasible_sizes roi_list tbRatios
    let fbg ← dGetE feasible "background"
    let obg ← dGetE orig "background"
    if (obg : ℚ) = 0 then .error .zeroDivisionError
    else do
      let background_probability : ℚ := (fbg : ℚ) / (obg : ℚ)
      let init : List (String × ℚ) := [("background", background_probability)]
      foldME (fun probs target =>
        if pyLower target ≠ "background" then do
          let r ← dGetE tbRatios target
          if background_probability = 0 then .error .zeroDivisionError
          else
            let prob := r / background_probability
            .ok (dSet probs target
              (if prob > 1 then 1 else if prob > 0 then prob else 0))
        else .ok probs) targets init

/-- The retention probabilities as the SPEC derives them (spec section 4.5
steps 2-4), written from the spec text for comparison with the code:
uncapped implied background `histogram[target] / ratio[target]` per target,
`feasibleBackground` their minimum capped by `histogram["background"]`,
per-target probability
`clamp(feasibleBackground * ratio[target] / histogram[target], 0, 1)` and
background probability `feasibleBackground / histogram["background"]`. -/
def spec_feasibleBackground (hist : List (String × ℕ))
    (tbRatios : List (String × ℚ)) (targets : List String) : ℚ :=
  let implied := (targets.filter (· ≠ "background")).map (fun t =>
    ((dGet hist t).getD 0 : ℚ) / (dGet tbRatios t).getD 1)
  min (implied.foldr min (((dGet hist "background").getD 0 : ℚ)))
    (((dGet hist "background").getD 0 : ℚ))

/-- The spec's per-target retention probability (spec section 4.5 step 4). -/
def spec_probability (hist : List (String × ℕ)) (tbRatios : List (String × ℚ))
    (targets : List String) (t : String) : ℚ :=
  let fb := spec_feasibleBackground hist tbRatios targets
  if t = "background" then fb / ((dGet hist "background").getD 0 : ℚ)
  else
    let p := fb * (dGet tbRatios t).getD 1 / ((dGet hist t).getD 0 : ℚ)
    max 0 (min 1 p)

/-! ### Concrete datasets and derived definitions used by the claims -/

def c3_soil : ROI :=
  ⟨"soil", "1", [255, 0, 0], 2,
    [⟨1, 0, 0, 0, 0, 0, 0, [1, 2, 3]⟩, ⟨2, 1, 0, 0, 0, 0, 0, [4, 5, 6]⟩]⟩

def c3_rock : ROI :=
  ⟨"rock", "1", [0, 255, 0], 1, [⟨3, 2, 2, 0, 0, 0, 0, [7, 8, 9]⟩]⟩

def c9_grass : ROI :=
  ⟨"grass", "1", [0, 0, 255], 3,
    [⟨1, 0, 0, 0, 0, 0, 0, [1]⟩, ⟨2, 1, 0, 0, 0, 0, 0, [2]⟩,
     ⟨3, 2, 0, 0, 0, 0, 0, [3]⟩]⟩

def c9_water : ROI :=
  ⟨"water", "1", [9, 9, 9], 2,
    [⟨4, 0, 1, 0, 0, 0, 0, [4]⟩, ⟨5, 1, 1, 0, 0, 0, 0, [5]⟩]⟩

def c1_ds : RegionsOfInterest :=
  { rois := [("soil", [("1", ⟨"soil", "1", [255, 0, 0], 1,
      [⟨1, 0, 0, 0, 0, 0, 0, [5]⟩]⟩)])],
    num_bands := 1, minimums := [0], maximums := [10],
    means := [], standard_deviations := [], is_normalized := false }

def c1_dsN : RegionsOfInterest :=
  { rois := [("soil", [("1", ⟨"soil", "1", [255, 0, 0], 1,
      [⟨1, 0, 0, 0, 0, 0, 0, [1/2]⟩]⟩)])],
    num_bands := 1, minimums := [0], maximums := [10],
    means := [], standard_deviations := [], is_normalized := true }

def c5_ds : RegionsOfInterest :=
  { rois := [("soil", [("1", ⟨"soil", "1", [255, 0, 0], 1,
      [⟨1, 0, 0, 0, 0, 0, 0, [5]⟩]⟩)])],
    num_bands := 1, minimums := [1], maximums := [1],
    means := [0], standard_deviations := [0], is_normalized := false }

def c6_ds : RegionsOfInterest :=
  { rois := [("soil", [("1", ⟨"soil", "1", [255, 0, 0], 1,
      [⟨1, 0, 0, 0, 0, 0, 0, [1/2]⟩]⟩)])],
    num_bands := 1, minimums := [0], maximums := [10],
    means := [], standard_deviations := [], is_normalized := true }

/-- The state `normalize` actually produces from the already-normalized
`c6_ds`: the bands normalized a second time. -/
def c6_dsNN : RegionsOfInterest :=
  { rois := [("soil", [("1", ⟨"soil", "1", [255, 0, 0], 1,
      [⟨1, 0, 0, 0, 0, 0, 0, [1/20]⟩]⟩)])],
    num_bands := 1, minimums := [0], maximums := [10],
    means := [], standard_deviations := [], is_normalized := true }

/-- The bucket a region's points are counted under by `get_histogram`
(point-counting mode): its own name when that name is a requested target
other than `'background'`, the `'background'` bucket otherwise. -/
def histBucket (targets : List String) (roi : ROI) : String :=
  if roi.name = "background" ∨ roi.name ∉ targets then "background" else roi.name

/-- Total declared points of the regions of `roi_list` folding into
bucket `l`. -/
def bucketCount (roi_list : List ROI) (targets : List String) (l : String) : ℕ :=
  ((roi_list.filter (fun r => histBucket targets r = l)).map ROI.num_points).sum

/-! ## Helper lemmas -/

/-- `pyTrunc` through the floor function, for evaluation by `norm_num`. -/
theorem pyTrunc_floor (q : ℚ) :
    pyTrunc q = if q < 0 then -(Int.floor (-q)) else Int.floor q := rfl


theorem dGet_dSet_self {α : Type} (d : List (String × α)) (k : String) (v : α) :
    dGet (dSet d k v) k = some v := by
  induction d with
  | nil => simp [dGet, dSet]
  | cons kv rest ih =>
      by_cases h : kv.1 = k
      · simp [dGet, dSet, h]
      · simpa [dGet, dSet, h] using ih

theorem dGet_dSet_ne {α : Type} (d : List (String × α)) (k k' : String) (v : α)
    (h : k' ≠ k) : dGet (dSet d k v) k' = dGet d k' := by
  induction d with
  | nil =>
      simp only [dGet, dSet]
      rw [if_neg (fun hh => h hh.symm)]
  | cons kv rest ih =>
      by_cases hk : kv.1 = k
      · subst hk
        simp only [dSet, if_pos rfl, dGet]
        rw [if_neg (fun hh => h hh.symm), if_neg (fun hh => h hh.symm)]
      · by_cases hk2 : kv.1 = k'
        · simp [dGet, dSet, hk, hk2, h]
        · simpa [dGet, dSet, hk, hk2] using ih

theorem sumVals_dSet (d : List (String × ℕ)) (k : String) (c w : ℕ)
    (h : dGet d k = some c) : sumVals (dSet d k w) + c = sumVals d + w := by
  induction d with
  | nil => simp [dGet] at h
  | cons kv rest ih =>
      by_cases hk : kv.1 = k
      · simp only [dGet, if_pos hk] at h
        cases h
        simp only [dSet, if_pos hk, sumVals, List.map_cons, List.sum_cons]
        omega
      · simp only [dGet, if_neg hk] at h
        have := ih h
        simp only [dSet, if_neg hk, sumVals, List.map_cons, List.sum_cons]
        simp only [sumVals] at this
        omega

theorem dGet_initHist_mem (targets : List String) (l : String)
    (h : l ∈ targets) : dGet (initHist targets) l = some 0 := by
  suffices H : ∀ d : List (String × ℕ), (l ∈ targets ∨ dGet d l = some 0) →
      dGet (targets.foldl (fun acc t => dSet acc t 0) d) l = some 0 by
    exact H [] (Or.inl h)
  clear h
  induction targets with
  | nil =>
      intro d hd
      rcases hd with h | h
      · exact absurd h (List.not_mem_nil l)
      · simpa using h
  | cons t ts ih =>
      intro d hd
      rcases hd with h | h
      · rcases List.mem_cons.mp h with h | h
        · subst h
          exact ih _ (Or.inr (dGet_dSet_self d l 0))
        · exact ih _ (Or.inl h)
      · by_cases ht : l = t
        · subst ht
          exact ih _ (Or.inr (dGet_dSet_self d l 0))
        · refine ih _ (Or.inr ?_)
          rw [dGet_dSet_ne _ _ _ _ ht]
          exact h

theorem sumVals_initHist (targets : List String) : sumVals (initHist targets) = 0 := by
  suffices H : ∀ d : List (String × ℕ), (∀ p ∈ d, p.2 = 0) →
      sumVals (targets.foldl (fun h t => dSet h t 0) d) = 0 by
    exact H [] (by simp)
  induction targets with
  | nil =>
      intro d hd
      simp only [List.foldl_nil, sumVals]
      have : ∀ v ∈ d.map Prod.snd, v = 0 := by
        intro v hv
        rcases List.mem_map.mp hv with ⟨p, hp, rfl⟩
        exact hd p hp
      exact List.sum_eq_zero this
  | cons t ts ih =>
      intro d hd
      refine ih _ ?_
      intro p hp
      induction d with
      | nil => simp [dSet] at hp; simp [hp]
      | cons kv rest ih2 =>
          simp only [dSet] at hp
          by_cases hk : kv.1 = t
          · rw [if_pos hk] at hp
            rcases List.mem_cons.mp hp with h | h
            · simp [h]
            · exact hd p (List.mem_cons_of_mem _ h)
          · rw [if_neg hk] at hp
            rcases List.mem_cons.mp hp with h | h
            · exact hd p (h ▸ List.mem_cons_self _ _)
            · exact ih2 (fun q hq => hd q (List.mem_cons_of_mem _ hq)) h

/-! ## Histogram bucketing -/

theorem histStep_ok (targets : List String) (h : List (String × ℕ)) (roi : ROI)
    (c : ℕ) (hc : dGet h (histBucket targets roi) = some c) :
    histStep targets true h roi =
      .ok (dSet h (histBucket targets roi) (c + roi.num_points)) := by
  by_cases hcond : roi.name = "background" ∨ roi.name ∉ targets
  · have hb : histBucket targets roi = "background" := by
      unfold histBucket; rw [if_pos hcond]
    rw [hb] at hc
    rw [hb]
    unfold histStep
    rw [if_pos hcond]
    show dAdd h "background" roi.num_points = _
    unfold dAdd dGetE
    rw [hc]
    rfl
  · have hb : histBucket targets roi = roi.name := by
      unfold histBucket; rw [if_neg hcond]
    rw [hb] at hc
    rw [hb]
    unfold histStep
    rw [if_neg hcond]
    show dAdd h roi.name roi.num_points = _
    unfold dAdd dGetE
    rw [hc]
    rfl

theorem histStep_ok_inv (targets : List String) (h h2 : List (String × ℕ))
    (roi : ROI) (hstep : histStep targets true h roi = .ok h2) :
    ∃ c, dGet h (histBucket targets roi) = some c ∧
      h2 = dSet h (histBucket targets roi) (c + roi.num_points) := by
  by_cases hcond : roi.name = "background" ∨ roi.name ∉ targets
  · have hb : histBucket targets roi = "background" := by
      unfold histBucket; rw [if_pos hcond]
    rw [hb]
    unfold histStep at hstep
    rw [if_pos hcond] at hstep
    replace hstep : dAdd h "background" roi.num_points = .ok h2 := hstep
    unfold dAdd dGetE at hstep
    cases hg : dGet h "background" with
    | none =>
        rw [hg] at hstep
        exact absurd hstep (by intro hh; exact Except.noConfusion hh)
    | some c =>
        rw [hg] at hstep
        replace hstep : Except.ok (dSet h "background" (c + roi.num_points)) =
          Except.ok h2 := hstep
        injection hstep with hstep
        exact ⟨c, rfl, hstep.symm⟩
  · have hb : histBucket targets roi = roi.name := by
      unfold histBucket; rw [if_neg hcond]
    rw [hb]
    unfold histStep at hstep
    rw [if_neg hcond] at hstep
    replace hstep : dAdd h roi.name roi.num_points = .ok h2 := hstep
    unfold dAdd dGetE at hstep
    cases hg : dGet h roi.name with
    | none =>
        rw [hg] at hstep
        exact absurd hstep (by intro hh; exact Except.noConfusion hh)
    | some c =>
        rw [hg] at hstep
        replace hstep : Except.ok (dSet h roi.name (c + roi.num_points)) =
          Except.ok h2 := hstep
        injection hstep with hstep
        exact ⟨c, rfl, hstep.symm⟩

theorem histBucket_mem (targets : List String) (roi : ROI)
    (hb : "background" ∈ targets) : histBucket targets roi ∈ targets := by
  unfold histBucket
  by_cases hcond : roi.name = "background" ∨ roi.name ∉ targets
  · rwa [if_pos hcond]
  · rw [if_neg hcond]
    push_neg at hcond
    exact hcond.2

theorem histLoop_ok (targets : List String) (hb : "background" ∈ targets) :
    ∀ (rl : List ROI) (d : List (String × ℕ)),
      (∀ l ∈ targets, ∃ c, dGet d l = some c) →
      ∃ h, histLoop targets true rl d = .ok h ∧
        ∀ l ∈ targets, ∃ c0, dGet d l = some c0 ∧
          dGet h l = some (c0 + bucketCount rl targets l) := by
  intro rl
  induction rl with
  | nil =>
      intro d hdom
      refine ⟨d, rfl, fun l hl => ?_⟩
      obtain ⟨c, hc⟩ := hdom l hl
      exact ⟨c, hc, by simpa [bucketCount] using hc⟩
  | cons roi rest ih =>
      intro d hdom
      obtain ⟨c, hc⟩ := hdom (histBucket targets roi) (histBucket_mem targets roi hb)
      have hstep := histStep_ok targets d roi c hc
      set b := histBucket targets roi with hbdef
      set d2 := dSet d b (c + roi.num_points) with hd2
      have hdom2 : ∀ l ∈ targets, ∃ c2, dGet d2 l = some c2 := by
        intro l hl
        by_cases hlb : l = b
        · subst hlb
          exact ⟨c + roi.num_points, dGet_dSet_self _ _ _⟩
        · obtain ⟨c2, hc2⟩ := hdom l hl
          exact ⟨c2, by rw [hd2, dGet_dSet_ne _ _ _ _ hlb]; exact hc2⟩
      obtain ⟨h, hloop, hvals⟩ := ih d2 hdom2
      refine ⟨h, ?_, ?_⟩
      · unfold histLoop
        rw [hstep]
        exact hloop
      · intro l hl
        obtain ⟨c0, hc0, hval⟩ := hvals l hl
        by_cases hlb : l = b
        · subst hlb
          rw [hd2, dGet_dSet_self] at hc0
          cases hc0
          refine ⟨c, hc, ?_⟩
          rw [hval]
          congr 1
          have hfb : histBucket targets roi = b := hbdef.symm
          simp [bucketCount, List.filter_cons, hfb]
          omega
        · rw [hd2, dGet_dSet_ne _ _ _ _ hlb] at hc0
          refine ⟨c0, hc0, ?_⟩
          rw [hval]
          congr 1
          have hne : ¬ (histBucket targets roi = l) := fun hh => hlb hh.symm
          simp [bucketCount, List.filter_cons, hne]

theorem histLoop_sum (targets : List String) :
    ∀ (rl : List ROI) (d h : List (String × ℕ)),
      histLoop targets true rl d = .ok h →
      sumVals h = sumVals d + (rl.map ROI.num_points).sum := by
  intro rl
  induction rl with
  | nil =>
      intro d h hloop
      unfold histLoop at hloop
      cases hloop
      simp
  | cons roi rest ih =>
      intro d h hloop
      unfold histLoop at hloop
      cases hstep : histStep targets true d roi with
      | error e => rw [hstep] at hloop; exact absurd hloop (by simp)
      | ok d2 =>
          rw [hstep] at hloop
          obtain ⟨c, hc, hd2⟩ := histStep_ok_inv targets d d2 roi hstep
          have hsum := sumVals_dSet d (histBucket targets roi) c (c + roi.num_points) hc
          have := ih d2 h hloop
          rw [this, hd2]
          simp only [List.map_cons, List.sum_cons]
          omega

/-! ## Claim C3: histogram folding -/

/-- C3 (counterexample): on the dataset with region `soil` of 2 points and
region `rock` of 1 point, `histogram(["soil"])` does not return
`soil ↦ 2, background ↦ 1` as the claim states: the `background` bucket is
initialised only for requested labels, so folding `rock` raises
`KeyError('background')`. -/
theorem c3_histogram_keyerror :
    get_histogram [c3_soil, c3_rock] ["soil"] true =
      .error (.keyError "background") ∧
    (Except.error (PyError.keyError "background") ≠
      (.ok [("soil", 2), ("background", 1)] :
        Except PyError (List (String × ℕ)))) := by
  constructor
  · decide
  · decide

/-- C3 (amended): for every dataset and every requested label set that
contains `"background"`, `get_histogram` succeeds and returns, for each
requested label, the number of points of the regions folding into it —
every region named `background` or whose name is not among the labels is
folded into the `background` bucket, the rest are counted under their own
name.  (As stated the claim fails: a label set without `"background"`
raises `KeyError` as soon as any region must be folded.) -/
theorem c3_histogram_folds (rl : List ROI) (targets : List String)
    (hb : "background" ∈ targets) :
    ∃ h, get_histogram rl targets true = .ok h ∧
      ∀ l ∈ targets, dGet h l = some (bucketCount rl targets l) := by
  obtain ⟨h, hloop, hvals⟩ := histLoop_ok targets hb rl (initHist targets)
    (fun l hl => ⟨0, dGet_initHist_mem targets l hl⟩)
  refine ⟨h, hloop, fun l hl => ?_⟩
  obtain ⟨c0, hc0, hval⟩ := hvals l hl
  rw [dGet_initHist_mem targets l hl] at hc0
  cases hc0
  simpa using hval

/-- C3 (witness): the claim's own example with `"background"` added to the
requested labels: `soil ↦ 2`, `background ↦ 1`. -/
theorem c3_histogram_folds_witness :
    ("background" ∈ ["soil", "background"]) ∧
    (∃ h, get_histogram [c3_soil, c3_rock] ["soil", "background"] true = .ok h ∧
      ∀ l ∈ ["soil", "background"],
        dGet h l = some (bucketCount [c3_soil, c3_rock] ["soil", "background"] l)) :=
  ⟨by decide, c3_histogram_folds [c3_soil, c3_rock] ["soil", "background"] (by decide)⟩

/-! ## Claim C9: histogram conservation -/

/-- C9 (counterexample): conservation does not hold "for every label set":
for the dataset grass (3 points) / water (2 points) and labels
`["grass"]`, `get_histogram` returns no histogram at all — it raises
`KeyError('background')` while folding `water` — so the sum of its values
cannot equal the 5 points of the dataset. -/
theorem c9_conservation_keyerror :
    get_histogram [c9_grass, c9_water] ["grass"] true =
      .error (.keyError "background") := by
  decide

/-- C9 (amended): whenever `get_histogram` does return a histogram (in
particular whenever `"background"` is among the requested labels), the sum
of its values equals the dataset's total point count — each region
contributes its declared `num_points`, which equals its number of parsed
points. -/
theorem c9_conservation (rl : List ROI) (targets : List String)
    (h : List (String × ℕ)) (hok : get_histogram rl targets true = .ok h)
    (hinv : ∀ r ∈ rl, r.num_points = r.points.length) :
    sumVals h = (rl.map (fun r => r.points.length)).sum := by
  have hs := histLoop_sum targets rl (initHist targets) h hok
  rw [sumVals_initHist] at hs
  rw [hs]
  simp only [Nat.zero_add]
  clear hs hok
  induction rl with
  | nil => simp
  | cons r rest ih =>
      simp only [List.map_cons, List.sum_cons]
      rw [hinv r (List.mem_cons_self _ _),
        ih (fun q hq => hinv q (List.mem_cons_of_mem _ hq))]

/-- C9 (witness): the grass/water dataset with labels containing
`background`: the histogram values sum to all 5 points. -/
theorem c9_conservation_witness :
    sumVals [("grass", 3), ("background", 2)] =
      (([c9_grass, c9_water].map (fun r => r.points.length)).sum) :=
  c9_conservation [c9_grass, c9_water] ["grass", "background"] _
    (by decide) (by decide)

/-! ## Neighborhood lemmas -/

theorem pyListSet_some {α : Type} (l : List α) (i : ℤ) (v : α)
    (h0 : -(l.length : ℤ) ≤ i) (h1 : i < (l.length : ℤ)) :
    pyListSet l i v = some (l.set (pyWrap l.length i).toNat v) := by
  unfold pyListSet
  rw [if_pos]
  unfold pyWrap
  constructor <;> split <;> omega

theorem linIndex_bounds (k : ℕ) (hk : 1 ≤ k) (ix iy : ℤ)
    (hix1 : (k : ℤ) - 2 * ((k / 2 : ℕ) : ℤ) - 1 ≤ ix) (hix2 : ix ≤ (k : ℤ) - 1)
    (hiy1 : (k : ℤ) - 2 * ((k / 2 : ℕ) : ℤ) - 1 ≤ iy) (hiy2 : iy ≤ (k : ℤ) - 1) :
    -((k * k : ℕ) : ℤ) ≤ iy * k + ix ∧ iy * k + ix < ((k * k : ℕ) : ℤ) := by
  have hH : 2 * (k / 2) ≤ k ∧ k ≤ 2 * (k / 2) + 1 := by omega
  have hHz : 2 * ((k / 2 : ℕ) : ℤ) ≤ (k : ℤ) ∧ (k : ℤ) ≤ 2 * ((k / 2 : ℕ) : ℤ) + 1 := by
    constructor <;> exact_mod_cast (by omega : _)
  have hix0 : -1 ≤ ix := by omega
  have hiy0 : -1 ≤ iy := by omega
  have hkz : (1 : ℤ) ≤ k := by exact_mod_cast hk
  have hup : iy * k + ix < ((k * k : ℕ) : ℤ) := by
    have h3 : iy * k ≤ ((k : ℤ) - 1) * k :=
      mul_le_mul_of_nonneg_right hiy2 (by positivity)
    push_cast
    nlinarith
  refine ⟨?_, hup⟩
  rcases le_or_lt 0 iy with hpos | hneg
  · have h3 : 0 ≤ iy * k := mul_nonneg hpos (by positivity)
    push_cast
    nlinarith
  · have hiym : iy = -1 := by omega
    have hkeven : (k : ℤ) = 2 * ((k / 2 : ℕ) : ℤ) := by omega
    have hk2 : (2 : ℤ) ≤ k := by
      have he : k = 2 * (k / 2) := by exact_mod_cast hkeven
      have : 2 ≤ k := by omega
      exact_mod_cast this
    subst hiym
    push_cast
    nlinarith

theorem euclid_unique (k a b c d : ℤ) (hk : 0 < k) (ha1 : 0 ≤ a) (ha2 : a < k)
    (hc1 : 0 ≤ c) (hc2 : c < k) (heq : b * k + a = d * k + c) : b = d ∧ a = c := by
  have hbd : b = d := by
    by_contra hne
    rcases lt_or_gt_of_ne hne with hlt | hgt
    · have h3 : (b + 1) * k ≤ d * k :=
        mul_le_mul_of_nonneg_right (by omega) (le_of_lt hk)
      rw [add_mul, one_mul] at h3
      linarith
    · have h3 : (d + 1) * k ≤ b * k :=
        mul_le_mul_of_nonneg_right (by omega) (le_of_lt hk)
      rw [add_mul, one_mul] at h3
      linarith
  subst hbd
  exact ⟨rfl, by linarith⟩

theorem neighborsLoop_length (k : ℕ) (hk : 1 ≤ k) (x y : ℤ) :
    ∀ (pl : List Point) (pts : List (Option Point)), pts.length = k * k →
      ∃ res, neighborsLoop k (x + ((k / 2 : ℕ) : ℤ)) (x - ((k / 2 : ℕ) : ℤ))
          (y + ((k / 2 : ℕ) : ℤ)) (y - ((k / 2 : ℕ) : ℤ)) pl pts = some res ∧
        res.length = k * k := by
  intro pl
  induction pl with
  | nil => intro pts hlen; exact ⟨pts, rfl, hlen⟩
  | cons q rest ih =>
      intro pts hlen
      unfold neighborsLoop
      by_cases hbox : x - ((k / 2 : ℕ) : ℤ) ≤ q.X ∧ q.X ≤ x + ((k / 2 : ℕ) : ℤ) ∧
          y - ((k / 2 : ℕ) : ℤ) ≤ q.Y ∧ q.Y ≤ y + ((k / 2 : ℕ) : ℤ)
      · rw [if_pos hbox]
        simp only [get_indices]
        obtain ⟨hb1, hb2, hb3, hb4⟩ := hbox
        have hbounds := linIndex_bounds k hk
          ((k : ℤ) - (x + ((k / 2 : ℕ) : ℤ) - q.X) - 1)
          ((k : ℤ) - (y + ((k / 2 : ℕ) : ℤ) - q.Y) - 1)
          (by omega) (by omega) (by omega) (by omega)
        rw [pyListSet_some _ _ _ (by rw [hlen]; omega) (by rw [hlen]; omega)]
        exact ih _ (by rw [List.length_set]; exact hlen)
      · rw [if_neg hbox]
        exact ih pts hlen

theorem elim_getLast?_cons {α β : Type} (a : α) (l : List α) (y : β) (f : α → β) :
    ((a :: l).getLast?).elim y f = (l.getLast?).elim (f a) f := by
  cases l with
  | nil => rfl
  | cons b bs =>
      rw [List.getLast?_cons_cons]
      obtain ⟨q, hq⟩ := Option.isSome_iff_exists.mp
        (List.getLast?_isSome.mpr (List.cons_ne_nil b bs))
      rw [hq]
      rfl

theorem neighborsLoop_center (k : ℕ) (hodd : k % 2 = 1) (p : Point) :
    ∀ (pl : List Point) (pts : List (Option Point)), pts.length = k * k →
      ∀ res, neighborsLoop k (p.X + ((k / 2 : ℕ) : ℤ)) (p.X - ((k / 2 : ℕ) : ℤ))
          (p.Y + ((k / 2 : ℕ) : ℤ)) (p.Y - ((k / 2 : ℕ) : ℤ)) pl pts = some res →
        res[(k / 2) * k + k / 2]? =
          ((pl.filter (fun r => r.X = p.X ∧ r.Y = p.Y)).getLast?).elim
            (pts[(k / 2) * k + k / 2]?) (fun q => some (some q)) := by
  have hk : 1 ≤ k := by omega
  have hkk : k = 2 * (k / 2) + 1 := by omega
  have hcenter_lt : (k / 2) * k + k / 2 < k * k := by nlinarith [hkk]
  intro pl
  induction pl with
  | nil =>
      intro pts hlen res hres
      unfold neighborsLoop at hres
      injection hres with hres
      subst hres
      rfl
  | cons q rest ih =>
      intro pts hlen res hres
      unfold neighborsLoop at hres
      by_cases hbox : p.X - ((k / 2 : ℕ) : ℤ) ≤ q.X ∧ q.X ≤ p.X + ((k / 2 : ℕ) : ℤ) ∧
          p.Y - ((k / 2 : ℕ) : ℤ) ≤ q.Y ∧ q.Y ≤ p.Y + ((k / 2 : ℕ) : ℤ)
      · rw [if_pos hbox] at hres
        simp only [get_indices] at hres
        obtain ⟨hb1, hb2, hb3, hb4⟩ := hbox
        set ix : ℤ := (k : ℤ) - (p.X + ((k / 2 : ℕ) : ℤ) - q.X) - 1 with hixdef
        set iy : ℤ := (k : ℤ) - (p.Y + ((k / 2 : ℕ) : ℤ) - q.Y) - 1 with hiydef
        have hkh : (k : ℤ) = 2 * ((k / 2 : ℕ) : ℤ) + 1 := by exact_mod_cast hkk
        have hix0 : 0 ≤ ix := by omega
        have hix1 : ix ≤ (k : ℤ) - 1 := by omega
        have hiy0 : 0 ≤ iy := by omega
        have hiy1 : iy ≤ (k : ℤ) - 1 := by omega
        have hlin0 : 0 ≤ iy * k + ix := by positivity
        have hlin1 : iy * k + ix < ((k * k : ℕ) : ℤ) := by
          have h3 : iy * k ≤ ((k : ℤ) - 1) * k :=
            mul_le_mul_of_nonneg_right hiy1 (by positivity)
          push_cast
          nlinarith
        rw [pyListSet_some _ _ _ (by rw [hlen]; omega) (by rw [hlen]; push_cast; omega)]
          at hres
        have hwrap : pyWrap pts.length (iy * k + ix) = iy * k + ix := by
          unfold pyWrap
          rw [if_neg (by omega)]
        rw [hwrap] at hres
        set j : ℕ := (iy * k + ix).toNat with hjdef
        have hjlin : (j : ℤ) = iy * k + ix := Int.toNat_of_nonneg hlin0
        set c : ℕ := (k / 2) * k + k / 2 with hcdef
        have hcast : (c : ℤ) = ((k / 2 : ℕ) : ℤ) * k + ((k / 2 : ℕ) : ℤ) := by
          rw [hcdef, Nat.cast_add, Nat.cast_mul]
        have hres2 := ih (pts.set j (some q))
          (by rw [List.length_set]; exact hlen) res hres
        by_cases hfq : q.X = p.X ∧ q.Y = p.Y
        · obtain ⟨hqx, hqy⟩ := hfq
          have hjc : j = c := by
            have hx : ix = ((k / 2 : ℕ) : ℤ) := by omega
            have hy : iy = ((k / 2 : ℕ) : ℤ) := by omega
            have hjcz : (j : ℤ) = (c : ℤ) := by rw [hjlin, hcast, hx, hy]
            exact_mod_cast hjcz
          rw [hres2, hjc,
            List.getElem?_set_self (by rw [hlen]; exact hcenter_lt),
            List.filter_cons, if_pos (by simp [hqx, hqy]), elim_getLast?_cons]
        · have hjc : j ≠ c := by
            intro hjceq
            have hlineq : iy * k + ix =
                ((k / 2 : ℕ) : ℤ) * k + ((k / 2 : ℕ) : ℤ) := by
              rw [← hjlin, hjceq, hcast]
            have hhlt : ((k / 2 : ℕ) : ℤ) < (k : ℤ) := by omega
            obtain ⟨hy, hx⟩ := euclid_unique (k : ℤ) ix iy ((k / 2 : ℕ) : ℤ)
              ((k / 2 : ℕ) : ℤ) (by omega) hix0 (by omega) (by omega) hhlt hlineq
            exact hfq ⟨by omega, by omega⟩
          rw [hres2, List.getElem?_set_ne hjc, List.filter_cons,
            if_neg (by simp [hfq])]
      · rw [if_neg hbox] at hres
        have hfq : ¬(q.X = p.X ∧ q.Y = p.Y) := by
          rintro ⟨hqx, hqy⟩
          exact hbox ⟨by omega, by omega, by omega, by omega⟩
        rw [ih pts hlen res hres, List.filter_cons, if_neg (by simp [hfq])]

/-! ## Claim C4: neighborhood size and center -/

/-- C4 (counterexample): two failures of the claim as stated.  First, with
window size 0 the "exactly k² slots" part fails — the result list is empty,
the queried point itself falls inside the degenerate box, its placement
index is −1, and the assignment into the empty list raises `IndexError`
instead of returning 0 slots.  Second, the center slot need not be the
queried point itself: when a later point of the searched region has the
same (X, Y) coordinates (as happens when aggregated sub-regions overlap),
it overwrites the center slot, so a 3 × 3 query around point id 1 at (5,5)
ends with point id 2 — a different point — in the center slot (index 4). -/
theorem c4_zero_window_indexerror :
    get_neighbors_list ⟨1, 5, 5, 0, 0, 0, 0, []⟩ [⟨1, 5, 5, 0, 0, 0, 0, []⟩] 0 =
      none ∧
    get_neighbors_list ⟨1, 5, 5, 0, 0, 0, 0, []⟩
        [⟨1, 5, 5, 0, 0, 0, 0, []⟩, ⟨2, 5, 5, 0, 0, 0, 0, []⟩] 3 =
      some [none, none, none, none, some ⟨2, 5, 5, 0, 0, 0, 0, []⟩,
        none, none, none, none] ∧
    (⟨2, 5, 5, 0, 0, 0, 0, []⟩ : Point) ≠ ⟨1, 5, 5, 0, 0, 0, 0, []⟩ := by
  refine ⟨by decide, by decide, by decide⟩

/-- C4 (amended): for every point, point list and window size `k ≥ 1`, the
list-mode neighborhood query succeeds and returns exactly `k²` slots, and
when `k` is odd and the queried point belongs to the searched region, the
slot at the geometric center index `k² / 2` holds the LAST point of the
region whose (X, Y) coordinates equal the queried point's — which is the
queried point itself exactly when no later region point shares its
coordinates.  (At `k = 0` the query instead raises `IndexError` — see the
counterexample.) -/
theorem c4_neighbors_size_center (p : Point) (pl : List Point) (k : ℕ)
    (hk : 1 ≤ k) :
    ∃ res, get_neighbors_list p pl k = some res ∧ res.length = k * k ∧
      (k % 2 = 1 → p ∈ pl →
        ∃ q, (pl.filter (fun r => r.X = p.X ∧ r.Y = p.Y)).getLast? = some q ∧
          q.X = p.X ∧ q.Y = p.Y ∧ res[k * k / 2]? = some (some q) ∧
          ((∀ r ∈ pl, r.X = p.X → r.Y = p.Y → r = p) → q = p)) := by
  obtain ⟨res, hres, hlen⟩ := neighborsLoop_length k hk p.X p.Y pl
    (List.replicate (k * k) none) (List.length_replicate _ _)
  refine ⟨res, hres, hlen, fun hodd hmem => ?_⟩
  have hcidx : k * k / 2 = (k / 2) * k + k / 2 := by
    obtain ⟨m, hm⟩ : ∃ m, k = 2 * m + 1 := ⟨k / 2, by omega⟩
    subst hm
    have hm2 : (2 * m + 1) / 2 = m := by omega
    rw [hm2]
    have hX : (2 * m + 1) * (2 * m + 1) = 2 * (m * (2 * m + 1) + m) + 1 := by ring
    rw [hX]
    generalize m * (2 * m + 1) + m = X
    omega
  have hcenter := neighborsLoop_center k hodd p pl
    (List.replicate (k * k) none) (List.length_replicate _ _) res hres
  have hpf : p ∈ pl.filter (fun r => decide (r.X = p.X ∧ r.Y = p.Y)) :=
    List.mem_filter.mpr ⟨hmem, by simp⟩
  obtain ⟨q, hq⟩ := Option.isSome_iff_exists.mp
    (List.getLast?_isSome.mpr (List.ne_nil_of_mem hpf))
  have hqmem : q ∈ pl.filter (fun r => decide (r.X = p.X ∧ r.Y = p.Y)) :=
    List.mem_of_mem_getLast? (Option.mem_def.mpr hq)
  obtain ⟨hqpl, hqcoords⟩ := List.mem_filter.mp hqmem
  have hqc : q.X = p.X ∧ q.Y = p.Y := by simpa using hqcoords
  refine ⟨q, hq, hqc.1, hqc.2, ?_, fun huniq => huniq q hqpl hqc.1 hqc.2⟩
  rw [hcidx, hcenter, hq]
  rfl

/-- C4 (witness): a 3 × 3 window around (5,5) in a two-point region: nine
slots, and the last (here: only) region point at coordinates (5,5) — the
queried point itself — in the center slot (index 4). -/
theorem c4_neighbors_size_center_witness :
    (1 ≤ 3) ∧
    (∃ res, get_neighbors_list ⟨1, 5, 5, 0, 0, 0, 0, [7]⟩
        [⟨1, 5, 5, 0, 0, 0, 0, [7]⟩, ⟨2, 4, 5, 0, 0, 0, 0, [8]⟩] 3 = some res ∧
      res.length = 3 * 3 ∧
      (3 % 2 = 1 → (⟨1, 5, 5, 0, 0, 0, 0, [7]⟩ : Point) ∈
          [⟨1, 5, 5, 0, 0, 0, 0, [7]⟩, ⟨2, 4, 5, 0, 0, 0, 0, [8]⟩] →
        ∃ q, ([(⟨1, 5, 5, 0, 0, 0, 0, [7]⟩ : Point),
            ⟨2, 4, 5, 0, 0, 0, 0, [8]⟩].filter
            (fun r => r.X = 5 ∧ r.Y = 5)).getLast? = some q ∧
          q.X = 5 ∧ q.Y = 5 ∧ res[3 * 3 / 2]? = some (some q) ∧
          ((∀ r ∈ [(⟨1, 5, 5, 0, 0, 0, 0, [7]⟩ : Point), ⟨2, 4, 5, 0, 0, 0, 0, [8]⟩],
            r.X = 5 → r.Y = 5 → r = ⟨1, 5, 5, 0, 0, 0, 0, [7]⟩) →
            q = ⟨1, 5, 5, 0, 0, 0, 0, [7]⟩))) :=
  ⟨by decide,
    c4_neighbors_size_center ⟨1, 5, 5, 0, 0, 0, 0, [7]⟩
      [⟨1, 5, 5, 0, 0, 0, 0, [7]⟩, ⟨2, 4, 5, 0, 0, 0, 0, [8]⟩] 3 (by decide)⟩

/-! ## Claim C10: even windows scan a (k+1)-wide box and wrap index −1 -/

/-- C10: for every even window size `k ≥ 1` the scanned box spans
`k + 1` coordinate values per axis (its width `max − min` is `k`), a
region point at the box's minimum x receives placement index −1 from
`get_indices`, and — shown on the 2 × 2 window around (5,5) with a second
region point at the box minimum (4,5) — Python's negative indexing wraps
that point into the LAST slot of its row of the k × k matrix
(`[0][1]`), rather than raising an error or excluding the point. -/
theorem c10_even_window_wraps (x y q : ℤ) (k : ℕ) (heven : k % 2 = 0)
    (hk : 1 ≤ k) :
    ((x + ((k / 2 : ℕ) : ℤ)) - (x - ((k / 2 : ℕ) : ℤ)) = (k : ℤ)) ∧
    (get_indices (x + ((k / 2 : ℕ) : ℤ)) (x - ((k / 2 : ℕ) : ℤ))
        (y + ((k / 2 : ℕ) : ℤ)) q k).1 = -1 ∧
    (get_neighbors_matrix ⟨1, 5, 5, 0, 0, 0, 0, []⟩
        [⟨1, 5, 5, 0, 0, 0, 0, []⟩, ⟨2, 4, 5, 0, 0, 0, 0, []⟩] 2 =
      some [[some ⟨1, 5, 5, 0, 0, 0, 0, []⟩, some ⟨2, 4, 5, 0, 0, 0, 0, []⟩],
            [none, none]]) := by
  have h2 : k = 2 * (k / 2) := by omega
  have h2z : (k : ℤ) = 2 * ((k / 2 : ℕ) : ℤ) := by exact_mod_cast h2
  refine ⟨by omega, ?_, by decide⟩
  unfold get_indices
  omega

/-- C10 (witness): instantiated at the 2 × 2 window (`k = 2`, `x = y = 0`,
row coordinate 0). -/
theorem c10_even_window_wraps_witness :
    (2 % 2 = 0 ∧ 1 ≤ 2) ∧
    (((0 : ℤ) + ((2 / 2 : ℕ) : ℤ)) - ((0 : ℤ) - ((2 / 2 : ℕ) : ℤ)) = (2 : ℤ)) ∧
    (get_indices ((0 : ℤ) + ((2 / 2 : ℕ) : ℤ)) ((0 : ℤ) - ((2 / 2 : ℕ) : ℤ))
        ((0 : ℤ) + ((2 / 2 : ℕ) : ℤ)) 0 2).1 = -1 ∧
    (get_neighbors_matrix ⟨1, 5, 5, 0, 0, 0, 0, []⟩
        [⟨1, 5, 5, 0, 0, 0, 0, []⟩, ⟨2, 4, 5, 0, 0, 0, 0, []⟩] 2 =
      some [[some ⟨1, 5, 5, 0, 0, 0, 0, []⟩, some ⟨2, 4, 5, 0, 0, 0, 0, []⟩],
            [none, none]]) :=
  ⟨⟨by decide, by decide⟩, c10_even_window_wraps 0 0 0 2 (by decide) (by decide)⟩

/-! ## Normalization lemmas -/

theorem exceptMapM_ok {α β : Type} (f : α → Except PyError β) :
    ∀ l : List α, (∀ x ∈ l, ∃ y, f x = .ok y) → ∃ l2, l.mapM f = .ok l2 := by
  intro l
  induction l with
  | nil => intro _; exact ⟨[], rfl⟩
  | cons a as ih =>
      intro h
      obtain ⟨y, hy⟩ := h a (List.mem_cons_self _ _)
      obtain ⟨l2, hl2⟩ := ih (fun x hx => h x (List.mem_cons_of_mem _ hx))
      refine ⟨y :: l2, ?_⟩
      rw [List.mapM_cons, hy, hl2]
      rfl

theorem exceptMapM_first_error {α β : Type} (f : α → Except PyError β)
    (e : PyError) :
    ∀ l : List α, (∀ x ∈ l, f x = .error e ∨ ∃ y, f x = .ok y) →
      (∃ x ∈ l, f x = .error e) → l.mapM f = (.error e : Except PyError (List β)) := by
  intro l
  induction l with
  | nil => rintro _ ⟨x, hx, _⟩; exact absurd hx (List.not_mem_nil x)
  | cons a as ih =>
      rintro h ⟨x, hx, hxe⟩
      rcases h a (List.mem_cons_self _ _) with ha | ⟨y, hy⟩
      · rw [List.mapM_cons, ha]
        rfl
      · have hxas : x ∈ as := by
          rcases List.mem_cons.mp hx with hxa | hxas
          · subst hxa; rw [hy] at hxe; exact absurd hxe (by simp)
          · exact hxas
        rw [List.mapM_cons, hy,
          ih (fun z hz => h z (List.mem_cons_of_mem _ hz)) ⟨x, hxas, hxe⟩]
        rfl

theorem mem_roisFlatten (rl : List (String × List (String × ROI)))
    (kv : String × List (String × ROI)) (hkv : kv ∈ rl) (sv : String × ROI)
    (hsv : sv ∈ kv.2) :
    sv.2 ∈ rl.foldr (fun kv2 acc => kv2.2.map Prod.snd ++ acc) [] := by
  induction rl with
  | nil => exact absurd hkv (List.not_mem_nil kv)
  | cons kv2 rest ih =>
      simp only [List.foldr_cons, List.mem_append]
      rcases List.mem_cons.mp hkv with hh | hh
      · subst hh
        exact Or.inl (List.mem_map.mpr ⟨sv, hsv, rfl⟩)
      · exact Or.inr (ih hh)

theorem mem_roisFlatten_inv (rl : List (String × List (String × ROI))) (roi : ROI)
    (hroi : roi ∈ rl.foldr (fun kv2 acc => kv2.2.map Prod.snd ++ acc) []) :
    ∃ kv ∈ rl, ∃ sv ∈ kv.2, sv.2 = roi := by
  induction rl with
  | nil => simpa using hroi
  | cons kv2 rest ih =>
      simp only [List.foldr_cons, List.mem_append] at hroi
      rcases hroi with hh | hh
      · obtain ⟨sv, hsv, hsveq⟩ := List.mem_map.mp hh
        exact ⟨kv2, List.mem_cons_self _ _, sv, hsv, hsveq⟩
      · obtain ⟨kv3, hkv3, sv, hsv, hsveq⟩ := ih hh
        exact ⟨kv3, List.mem_cons_of_mem _ hkv3, sv, hsv, hsveq⟩

theorem mem_get_all (ds : RegionsOfInterest) (kv : String × List (String × ROI))
    (hkv : kv ∈ ds.rois) (sv : String × ROI) (hsv : sv ∈ kv.2) :
    sv.2 ∈ get_all ds :=
  mem_roisFlatten ds.rois kv hkv sv hsv

theorem normBandsGo_ok (f : List ℚ → ℕ → Except PyError ℚ) (nb : ℕ)
    (hf : ∀ (bands : List ℚ), bands.length = nb → ∀ j, j < nb →
      ∃ v, f bands j = .ok v) :
    ∀ (n i : ℕ) (bands : List ℚ), bands.length = nb → i + n ≤ nb →
      ∃ bands2, normBandsGo f bands i n = .ok bands2 ∧ bands2.length = nb := by
  intro n
  induction n with
  | zero => intro i bands hlen _; exact ⟨bands, rfl, hlen⟩
  | succ m ih =>
      intro i bands hlen hle
      obtain ⟨v, hv⟩ := hf bands hlen i (by omega)
      obtain ⟨bands2, hb2, hl2⟩ := ih (i + 1) (bands.set i v)
        (by rw [List.length_set]; exact hlen) (by omega)
      refine ⟨bands2, ?_, hl2⟩
      unfold normBandsGo
      rw [hv]
      exact hb2

theorem normBandsGo_err (f : List ℚ → ℕ → Except PyError ℚ) (nb : ℕ)
    (D : ℕ → Prop)
    (hfe : ∀ (bands : List ℚ), bands.length = nb → ∀ j, j < nb → D j →
      f bands j = .error .zeroDivisionError)
    (hfo : ∀ (bands : List ℚ), bands.length = nb → ∀ j, j < nb → ¬ D j →
      ∃ v, f bands j = .ok v) :
    ∀ (n i : ℕ) (bands : List ℚ), bands.length = nb →
      (∃ j, i ≤ j ∧ j < i + n ∧ j < nb ∧ D j) →
      normBandsGo f bands i n = .error .zeroDivisionError := by
  intro n
  induction n with
  | zero => rintro i bands _ ⟨j, hj1, hj2, _, _⟩; omega
  | succ m ih =>
      rintro i bands hlen ⟨j, hj1, hj2, hj3, hj4⟩
      by_cases hDi : i < nb ∧ D i
      · unfold normBandsGo
        rw [hfe bands hlen i hDi.1 hDi.2]
        rfl
      · have hji : i ≠ j := by
          intro hh
          subst hh
          exact hDi ⟨hj3, hj4⟩
        have hiNb : i < nb := by omega
        have hnDi : ¬ D i := fun hh => hDi ⟨hiNb, hh⟩
        obtain ⟨v, hv⟩ := hfo bands hlen i hiNb hnDi
        unfold normBandsGo
        rw [hv]
        exact ih (i + 1) (bands.set i v) (by rw [List.length_set]; exact hlen)
          ⟨j, by omega, by omega, hj3, hj4⟩

theorem mapPointsM_ok (g : Point → Except PyError Point) (ds : RegionsOfInterest)
    (hok : ∀ roi ∈ get_all ds, ∀ p ∈ roi.points, ∃ p2, g p = .ok p2) :
    ∃ r2, mapPointsM g ds = .ok r2 := by
  unfold mapPointsM
  apply exceptMapM_ok
  intro kv hkv
  have hsubs : ∃ subs, kv.2.mapM (fun sv => do
      let pts ← sv.2.points.mapM g
      pure (sv.1, { sv.2 with points := pts })) = .ok subs := by
    apply exceptMapM_ok
    intro sv hsv
    have hpts : ∃ pts, sv.2.points.mapM g = .ok pts := by
      apply exceptMapM_ok
      intro p hp
      exact hok sv.2 (mem_get_all ds kv hkv sv hsv) p hp
    obtain ⟨pts, hpts⟩ := hpts
    refine ⟨(sv.1, { sv.2 with points := pts }), ?_⟩
    rw [hpts]
    rfl
  obtain ⟨subs, hsubs⟩ := hsubs
  refine ⟨(kv.1, subs), ?_⟩
  rw [hsubs]
  rfl

theorem mapPointsM_err (g : Point → Except PyError Point) (ds : RegionsOfInterest)
    (e : PyError)
    (herr : ∀ roi ∈ get_all ds, ∀ p ∈ roi.points, g p = .error e)
    (hne : ∃ roi ∈ get_all ds, roi.points ≠ []) :
    mapPointsM g ds = .error e := by
  unfold mapPointsM
  obtain ⟨roi, hroi, hropts⟩ := hne
  have hwit : ∃ kv ∈ ds.rois, ∃ sv ∈ kv.2, sv.2 = roi :=
    mem_roisFlatten_inv ds.rois roi hroi
  have hptsErr : ∀ sv2 : String × ROI, ∀ kv2 ∈ ds.rois, sv2 ∈ kv2.2 →
      sv2.2.points ≠ [] → sv2.2.points.mapM g = (.error e : Except PyError (List Point)) := by
    intro sv2 kv2 hkv2 hsv2 hpne
    cases hc : sv2.2.points with
    | nil => exact absurd hc hpne
    | cons p ps =>
        rw [List.mapM_cons,
          herr sv2.2 (mem_get_all ds kv2 hkv2 sv2 hsv2) p (by rw [hc]; exact List.mem_cons_self _ _)]
        rfl
  have hsvDich : ∀ kv2 ∈ ds.rois, ∀ sv2 ∈ kv2.2,
      (fun sv => do
        let pts ← sv.2.points.mapM g
        pure (sv.1, { sv.2 with points := pts }) :
          String × ROI → Except PyError (String × ROI)) sv2 = .error e ∨
      ∃ y, (fun sv => do
        let pts ← sv.2.points.mapM g
        pure (sv.1, { sv.2 with points := pts }) :
          String × ROI → Except PyError (String × ROI)) sv2 = .ok y := by
    intro kv2 hkv2 sv2 hsv2
    by_cases hpe : sv2.2.points = []
    · right
      refine ⟨(sv2.1, { sv2.2 with points := [] }), ?_⟩
      simp only [hpe]
      rfl
    · left
      have := hptsErr sv2 kv2 hkv2 hsv2 hpe
      simp only [this]
      rfl
  have hkvDich : ∀ kv2 ∈ ds.rois,
      (fun kv => do
        let subs ← kv.2.mapM (fun sv => do
          let pts ← sv.2.points.mapM g
          pure (sv.1, { sv.2 with points := pts }))
        pure (kv.1, subs) :
          String × List (String × ROI) →
            Except PyError (String × List (String × ROI))) kv2 = .error e ∨
      ∃ y, (fun kv => do
        let subs ← kv.2.mapM (fun sv => do
          let pts ← sv.2.points.mapM g
          pure (sv.1, { sv.2 with points := pts }))
        pure (kv.1, subs) :
          String × List (String × ROI) →
            Except PyError (String × List (String × ROI))) kv2 = .ok y := by
    intro kv2 hkv2
    by_cases hie : ∃ sv2 ∈ kv2.2, sv2.2.points ≠ []
    · left
      obtain ⟨sv2, hsv2, hpne⟩ := hie
      have hinner : kv2.2.mapM (fun sv => do
          let pts ← sv.2.points.mapM g
          pure (sv.1, { sv.2 with points := pts })) =
            (.error e : Except PyError (List (String × ROI))) := by
        apply exceptMapM_first_error _ e _ (fun sv hsv => hsvDich kv2 hkv2 sv hsv)
        refine ⟨sv2, hsv2, ?_⟩
        have := hptsErr sv2 kv2 hkv2 hsv2 hpne
        simp only [this]
        rfl
      simp only [hinner]
      rfl
    · right
      push_neg at hie
      have hinner : ∃ subs, kv2.2.mapM (fun sv => do
          let pts ← sv.2.points.mapM g
          pure (sv.1, { sv.2 with points := pts })) = .ok subs := by
        apply exceptMapM_ok
        intro sv hsv
        refine ⟨(sv.1, { sv.2 with points := [] }), ?_⟩
        simp only [hie sv hsv]
        rfl
      obtain ⟨subs, hinner⟩ := hinner
      refine ⟨(kv2.1, subs), ?_⟩
      simp only [hinner]
      rfl
  apply exceptMapM_first_error _ e _ hkvDich
  obtain ⟨kv, hkv, sv, hsv, hsveq⟩ := hwit
  refine ⟨kv, hkv, ?_⟩
  have hinner : kv.2.mapM (fun sv => do
      let pts ← sv.2.points.mapM g
      pure (sv.1, { sv.2 with points := pts })) =
        (.error e : Except PyError (List (String × ROI))) := by
    apply exceptMapM_first_error _ e _ (fun sv2 hsv2 => hsvDich kv hkv sv2 hsv2)
    refine ⟨sv, hsv, ?_⟩
    have := hptsErr sv kv hkv hsv (by rw [hsveq]; exact hropts)
    simp only [this]
    rfl
  simp only [hinner]
  rfl

theorem listGetE_ok (l : List ℚ) (j : ℕ) (hj : j < l.length) :
    listGetE l j = .ok (l.getD j 0) := by
  unfold listGetE
  rw [List.get?_eq_getElem?, List.getElem?_eq_getElem hj, List.getD_eq_getElem l 0 hj]

theorem normBandMinMax_eval (mins maxs bands : List ℚ) (nb j : ℕ)
    (hb : bands.length = nb) (hm : mins.length = nb) (hM : maxs.length = nb)
    (hj : j < nb) :
    normBandMinMax mins maxs bands j =
      if maxs.getD j 0 - mins.getD j 0 = 0 then .error .zeroDivisionError
      else .ok ((bands.getD j 0 - mins.getD j 0) /
        (maxs.getD j 0 - mins.getD j 0)) := by
  unfold normBandMinMax
  rw [listGetE_ok bands j (by omega), listGetE_ok mins j (by omega),
    listGetE_ok maxs j (by omega)]
  rfl

theorem normBandGauss_eval (means stds bands : List ℚ) (nb j : ℕ)
    (hb : bands.length = nb) (hm : means.length = nb) (hs : stds.length = nb)
    (hj : j < nb) :
    normBandGauss means stds bands j =
      if stds.getD j 0 = 0 then .error .zeroDivisionError
      else .ok ((bands.getD j 0 - means.getD j 0) / stds.getD j 0) := by
  unfold normBandGauss
  rw [listGetE_ok bands j (by omega), listGetE_ok means j (by omega),
    listGetE_ok stds j (by omega)]
  rfl

theorem normPointMinMax_ok (mins maxs : List ℚ) (nb : ℕ)
    (hm : mins.length = nb) (hM : maxs.length = nb) (p : Point)
    (hp : p.bands.length = nb)
    (hnd : ∀ j, j < nb → maxs.getD j 0 - mins.getD j 0 ≠ 0) :
    ∃ p2, normPointMinMax mins maxs nb p = .ok p2 := by
  obtain ⟨bands2, hb2, _⟩ := normBandsGo_ok (normBandMinMax mins maxs) nb
    (fun bands hlen j hj => by
      rw [normBandMinMax_eval mins maxs bands nb j hlen hm hM hj,
        if_neg (hnd j hj)]
      exact ⟨_, rfl⟩) nb 0 p.bands hp (by omega)
  refine ⟨{ p with bands := bands2 }, ?_⟩
  unfold normPointMinMax
  rw [hb2]
  rfl

theorem normPointMinMax_err (mins maxs : List ℚ) (nb : ℕ)
    (hm : mins.length = nb) (hM : maxs.length = nb) (p : Point)
    (hp : p.bands.length = nb)
    (hdeg : ∃ j, j < nb ∧ maxs.getD j 0 - mins.getD j 0 = 0) :
    normPointMinMax mins maxs nb p = .error .zeroDivisionError := by
  obtain ⟨j, hj, hdj⟩ := hdeg
  have := normBandsGo_err (normBandMinMax mins maxs) nb
    (fun j2 => maxs.getD j2 0 - mins.getD j2 0 = 0)
    (fun bands hlen j2 hj2 hD => by
      rw [normBandMinMax_eval mins maxs bands nb j2 hlen hm hM hj2, if_pos hD])
    (fun bands hlen j2 hj2 hD => by
      rw [normBandMinMax_eval mins maxs bands nb j2 hlen hm hM hj2, if_neg hD]
      exact ⟨_, rfl⟩)
    nb 0 p.bands hp ⟨j, by omega, by omega, hj, hdj⟩
  unfold normPointMinMax
  rw [this]
  rfl

theorem normPointGauss_ok (means stds : List ℚ) (nb : ℕ)
    (hm : means.length = nb) (hs : stds.length = nb) (p : Point)
    (hp : p.bands.length = nb)
    (hnd : ∀ j, j < nb → stds.getD j 0 ≠ 0) :
    ∃ p2, normPointGauss means stds nb p = .ok p2 := by
  obtain ⟨bands2, hb2, _⟩ := normBandsGo_ok (normBandGauss means stds) nb
    (fun bands hlen j hj => by
      rw [normBandGauss_eval means stds bands nb j hlen hm hs hj,
        if_neg (hnd j hj)]
      exact ⟨_, rfl⟩) nb 0 p.bands hp (by omega)
  refine ⟨{ p with bands := bands2 }, ?_⟩
  unfold normPointGauss
  rw [hb2]
  rfl

theorem normPointGauss_err (means stds : List ℚ) (nb : ℕ)
    (hm : means.length = nb) (hs : stds.length = nb) (p : Point)
    (hp : p.bands.length = nb)
    (hdeg : ∃ j, j < nb ∧ stds.getD j 0 = 0) :
    normPointGauss means stds nb p = .error .zeroDivisionError := by
  obtain ⟨j, hj, hdj⟩ := hdeg
  have := normBandsGo_err (normBandGauss means stds) nb
    (fun j2 => stds.getD j2 0 = 0)
    (fun bands hlen j2 hj2 hD => by
      rw [normBandGauss_eval means stds bands nb j2 hlen hm hs hj2, if_pos hD])
    (fun bands hlen j2 hj2 hD => by
      rw [normBandGauss_eval means stds bands nb j2 hlen hm hs hj2, if_neg hD]
      exact ⟨_, rfl⟩)
    nb 0 p.bands hp ⟨j, by omega, by omega, hj, hdj⟩
  unfold normPointGauss
  rw [this]
  rfl

theorem normalizeMinMax_ok (ds : RegionsOfInterest)
    (hm : ds.minimums.length = ds.num_bands)
    (hM : ds.maximums.length = ds.num_bands)
    (hpts : ∀ roi ∈ get_all ds, ∀ p ∈ roi.points, p.bands.length = ds.num_bands)
    (hnd : ∀ j, j < ds.num_bands →
      ds.maximums.getD j 0 - ds.minimums.getD j 0 ≠ 0) :
    ∃ ds2, normalizeMinMax ds = .ok ds2 ∧ ds2.is_normalized = true := by
  unfold normalizeMinMax
  rw [if_neg (fun hcond => hcond.1 hm)]
  obtain ⟨r2, hr2⟩ := mapPointsM_ok _ ds (fun roi hroi p hp =>
    normPointMinMax_ok ds.minimums ds.maximums ds.num_bands hm hM p
      (hpts roi hroi p hp) hnd)
  refine ⟨{ ds with rois := r2, is_normalized := true }, ?_, rfl⟩
  rw [hr2]
  rfl

theorem normalizeMinMax_err (ds : RegionsOfInterest)
    (hm : ds.minimums.length = ds.num_bands)
    (hM : ds.maximums.length = ds.num_bands)
    (hpts : ∀ roi ∈ get_all ds, ∀ p ∈ roi.points, p.bands.length = ds.num_bands)
    (hdeg : ∃ j, j < ds.num_bands ∧
      ds.maximums.getD j 0 - ds.minimums.getD j 0 = 0)
    (hne : ∃ roi ∈ get_all ds, roi.points ≠ []) :
    normalizeMinMax ds = .error .zeroDivisionError := by
  unfold normalizeMinMax
  rw [if_neg (fun hcond => hcond.1 hm)]
  have := mapPointsM_err _ ds .zeroDivisionError (fun roi hroi p hp =>
    normPointMinMax_err ds.minimums ds.maximums ds.num_bands hm hM p
      (hpts roi hroi p hp) hdeg) hne
  rw [this]
  rfl

theorem normalizeGauss_ok (ds : RegionsOfInterest)
    (hm : ds.means.length = ds.num_bands)
    (hs : ds.standard_deviations.length = ds.num_bands)
    (hpts : ∀ roi ∈ get_all ds, ∀ p ∈ roi.points, p.bands.length = ds.num_bands)
    (hnd : ∀ j, j < ds.num_bands → ds.standard_deviations.getD j 0 ≠ 0) :
    ∃ ds2, normalizeGauss ds = .ok ds2 ∧ ds2.is_normalized = true := by
  unfold normalizeGauss
  rw [if_neg (fun hcond => hcond.1 hm)]
  obtain ⟨r2, hr2⟩ := mapPointsM_ok _ ds (fun roi hroi p hp =>
    normPointGauss_ok ds.means ds.standard_deviations ds.num_bands hm hs p
      (hpts roi hroi p hp) hnd)
  refine ⟨{ ds with rois := r2, is_normalized := true }, ?_, rfl⟩
  rw [hr2]
  rfl

theorem normalizeGauss_err (ds : RegionsOfInterest)
    (hm : ds.means.length = ds.num_bands)
    (hs : ds.standard_deviations.length = ds.num_bands)
    (hpts : ∀ roi ∈ get_all ds, ∀ p ∈ roi.points, p.bands.length = ds.num_bands)
    (hdeg : ∃ j, j < ds.num_bands ∧ ds.standard_deviations.getD j 0 = 0)
    (hne : ∃ roi ∈ get_all ds, roi.points ≠ []) :
    normalizeGauss ds = .error .zeroDivisionError := by
  unfold normalizeGauss
  rw [if_neg (fun hcond => hcond.1 hm)]
  have := mapPointsM_err _ ds .zeroDivisionError (fun roi hroi p hp =>
    normPointGauss_err ds.means ds.standard_deviations ds.num_bands hm hs p
      (hpts roi hroi p hp) hdeg) hne
  rw [this]
  rfl

/-- Reduction lemmas for the `Except` monad, used to evaluate the embedded
functions on concrete inputs. -/
theorem exceptBind_ok {α β : Type} (a : α) (f : α → Except PyError β) :
    (Except.ok a : Except PyError α) >>= f = f a := rfl

theorem exceptBind_err {α β : Type} (e : PyError) (f : α → Except PyError β) :
    (Except.error e : Except PyError α) >>= f = .error e := rfl

theorem exceptPure {α : Type} (a : α) :
    (pure a : Except PyError α) = .ok a := rfl

/-! ## Claim C1: round-trip normalization -/

/-- C1: the round trip fails on every dataset with at least one region.
On the spec's own example (band value 5, min 0, max 10): `normalize`
correctly produces 1/2, but `absolutize` then iterates the `rois` dict —
binding region-name STRINGS, not ROI objects — and raises
`AttributeError` on `.points` before restoring anything; the spectra are
left normalized, not returned to `v`.  (`_normalize_min_max` uses
`self.get_all()`; `_absolutize_min_max` uses `self.rois`, which is the
slip.) -/
theorem c1_roundtrip_attribute_error :
    normalize c1_ds "min-max" = .ok c1_dsN ∧
    c1_dsN.is_normalized = true ∧
    absolutizePair c1_dsN "min-max" =
      (c1_dsN, some (.attributeError "str object has no attribute points")) ∧
    c1_dsN.rois ≠ c1_ds.rois := by
  refine ⟨?_, rfl, rfl, ?_⟩
  · have hd : normalize c1_ds "min-max" = normalizeMinMax c1_ds := rfl
    rw [hd]
    simp only [normalizeMinMax, mapPointsM, normPointMinMax, normBandsGo,
      normBandMinMax, listGetE, c1_ds, c1_dsN, List.mapM_cons, List.mapM_nil,
      List.get?, exceptBind_ok, exceptBind_err, exceptPure]
    norm_num
    rfl
  · simp [c1_ds, c1_dsN]
    norm_num

/-! ## Claim C5: degenerate band statistics -/

/-- C5 (counterexample): on a dataset whose single band has
`maximum[0] == minimum[0]` (and `standard_deviation[0] == 0`), both
normalization modes fail with Python's `ZeroDivisionError` — there is no
`DegenerateBandError` naming the band index anywhere in the code. -/
theorem c5_zero_division_not_degenerate_band :
    normalize c5_ds "min-max" = .error .zeroDivisionError ∧
    normalize c5_ds "gaussian" = .error .zeroDivisionError ∧
    PyError.zeroDivisionError ≠ PyError.degenerateBandError 0 := by
  refine ⟨?_, ?_, by decide⟩
  · have hd : normalize c5_ds "min-max" = normalizeMinMax c5_ds := rfl
    rw [hd]
    simp only [normalizeMinMax, mapPointsM, normPointMinMax, normBandsGo,
      normBandMinMax, listGetE, c5_ds, List.mapM_cons, List.mapM_nil,
      List.get?, exceptBind_ok, exceptBind_err, exceptPure]
    norm_num
    rfl
  · have hd : normalize c5_ds "gaussian" = normalizeGauss c5_ds := rfl
    rw [hd]
    simp only [normalizeGauss, mapPointsM, normPointGauss, normBandsGo,
      normBandGauss, listGetE, c5_ds, List.mapM_cons, List.mapM_nil,
      List.get?, exceptBind_ok, exceptBind_err, exceptPure]
    norm_num
    rfl

/-- C5 (amended): for every dataset with a point and a degenerate band
(`maximum[i] == minimum[i]` in min-max mode, `standard_deviation[i] == 0`
in gaussian mode), normalization fails with `ZeroDivisionError` — the
error does not name the band index, and no inf/NaN is ever written into a
spectral vector because CPython raises on float division by zero instead
of producing one. -/
theorem c5_degenerate_raises (ds : RegionsOfInterest)
    (hpts : ∀ roi ∈ get_all ds, ∀ p ∈ roi.points, p.bands.length = ds.num_bands)
    (hne : ∃ roi ∈ get_all ds, roi.points ≠ []) :
    (ds.minimums.length = ds.num_bands → ds.maximums.length = ds.num_bands →
      (∃ j, j < ds.num_bands ∧ ds.maximums.getD j 0 = ds.minimums.getD j 0) →
      normalize ds "min-max" = .error .zeroDivisionError) ∧
    (ds.means.length = ds.num_bands →
      ds.standard_deviations.length = ds.num_bands →
      (∃ j, j < ds.num_bands ∧ ds.standard_deviations.getD j 0 = 0) →
      normalize ds "gaussian" = .error .zeroDivisionError) := by
  constructor
  · intro hm hM hdeg
    have : normalize ds "min-max" = normalizeMinMax ds := rfl
    rw [this]
    refine normalizeMinMax_err ds hm hM hpts ?_ hne
    obtain ⟨j, hj, hdj⟩ := hdeg
    exact ⟨j, hj, by rw [hdj]; ring⟩
  · intro hm hs hdeg
    have : normalize ds "gaussian" = normalizeGauss ds := rfl
    rw [this]
    exact normalizeGauss_err ds hm hs hpts hdeg hne

/-- C5 (witness): the single-band degenerate dataset `c5_ds`. -/
theorem c5_degenerate_raises_witness :
    (∀ roi ∈ get_all c5_ds, ∀ p ∈ roi.points,
      p.bands.length = c5_ds.num_bands) ∧
    (∃ roi ∈ get_all c5_ds, roi.points ≠ []) ∧
    ((c5_ds.minimums.length = c5_ds.num_bands →
      c5_ds.maximums.length = c5_ds.num_bands →
      (∃ j, j < c5_ds.num_bands ∧
        c5_ds.maximums.getD j 0 = c5_ds.minimums.getD j 0) →
      normalize c5_ds "min-max" = .error .zeroDivisionError) ∧
    (c5_ds.means.length = c5_ds.num_bands →
      c5_ds.standard_deviations.length = c5_ds.num_bands →
      (∃ j, j < c5_ds.num_bands ∧ c5_ds.standard_deviations.getD j 0 = 0) →
      normalize c5_ds "gaussian" = .error .zeroDivisionError)) :=
  ⟨by decide, by decide, c5_degenerate_raises c5_ds (by decide) (by decide)⟩

/-! ## Claim C6: normalize/denormalize state machine -/

/-- C6 (counterexample): `normalize` never checks the is-normalized flag:
on a dataset whose flag is already set it silently normalizes AGAIN
(1/2 becomes 1/20) and succeeds — it does not fail with
`AlreadyNormalizedError` as the claim states. -/
theorem c6_renormalize_not_rejected :
    normalize c6_ds "min-max" = .ok c6_dsNN ∧
    (∀ r : RegionsOfInterest,
      (Except.ok r : Except PyError RegionsOfInterest) ≠
        .error .alreadyNormalizedError) := by
  refine ⟨?_, fun r h => Except.noConfusion h⟩
  have hd : normalize c6_ds "min-max" = normalizeMinMax c6_ds := rfl
  rw [hd]
  simp only [normalizeMinMax, mapPointsM, normPointMinMax, normBandsGo,
    normBandMinMax, listGetE, c6_ds, c6_dsNN, List.mapM_cons, List.mapM_nil,
    List.get?, exceptBind_ok, exceptBind_err, exceptPure]
  norm_num
  rfl

/-- C6 (amended): calling `normalize` while the is-normalized flag is
already set does NOT fail — it re-normalizes the data and leaves the flag
set (no `AlreadyNormalizedError` exists in the code); calling
`absolutize` (denormalize) while the flag is not set raises a plain
`Exception` — not `NotNormalizedError` — before touching any point, so
every spectral vector and the flag are left unchanged (the returned state
is exactly the input dataset). -/
theorem c6_state_machine (ds dsu : RegionsOfInterest)
    (hset : ds.is_normalized = true)
    (hm : ds.minimums.length = ds.num_bands)
    (hM : ds.maximums.length = ds.num_bands)
    (hpts : ∀ roi ∈ get_all ds, ∀ p ∈ roi.points, p.bands.length = ds.num_bands)
    (hnd : ∀ j, j < ds.num_bands →
      ds.maximums.getD j 0 - ds.minimums.getD j 0 ≠ 0)
    (hunset : dsu.is_normalized = false) :
    (∃ ds2, normalize ds "min-max" = .ok ds2 ∧ ds2.is_normalized = true) ∧
    absolutizePair dsu "min-max" =
      (dsu, some (.exception
        "The data has to be normalized, if you want to revert the normalization!")) := by
  constructor
  · have : normalize ds "min-max" = normalizeMinMax ds := rfl
    rw [this]
    exact normalizeMinMax_ok ds hm hM hpts hnd
  · unfold absolutizePair
    rw [if_pos (Or.inl rfl)]
    unfold absolutizeMinMaxPair
    rw [if_pos hunset]

/-- C6 (witness): `c6_ds` (flag set, re-normalization succeeds) and
`c1_ds` (flag unset, denormalize rejected with the generic exception). -/
theorem c6_state_machine_witness :
    (c6_ds.is_normalized = true ∧ c1_ds.is_normalized = false) ∧
    (∃ ds2, normalize c6_ds "min-max" = .ok ds2 ∧ ds2.is_normalized = true) ∧
    absolutizePair c1_ds "min-max" =
      (c1_ds, some (.exception
        "The data has to be normalized, if you want to revert the normalization!")) :=
  ⟨⟨rfl, rfl⟩,
    c6_state_machine c6_ds c1_ds rfl (by decide) (by decide) (by decide)
      (by intro j hj
          have hj0 : j = 0 := by simpa [c6_ds] using hj
          subst hj0
          norm_num [c6_ds]) rfl⟩

/-! ## Parser lemmas -/

theorem optBind_eq_some {α β : Type} (x : Option α) (f : α → Option β) (b : β) :
    (x >>= f = some b) ↔ ∃ a, x = some a ∧ f a = some b := by
  cases x <;> simp

theorem mkPoint_bands (row : List ℚ) (p : Point) (h : mkPoint row = some p) :
    p.bands.length = row.length - 7 := by
  rcases row with _ | ⟨a, _ | ⟨b, _ | ⟨c, _ | ⟨d, _ | ⟨e, _ | ⟨f, _ | ⟨g, rest⟩⟩⟩⟩⟩⟩⟩ <;>
    simp only [mkPoint] at h <;>
    try exact Option.noConfusion h
  injection h with h
  subst h
  simp [mkPoint]

theorem nextRecord_spec (L : ℕ) :
    ∀ file : List (List ℚ), (∀ row ∈ file, row.length = L) →
      ∀ row rest, nextRecord file = some (row, rest) →
        row.length = L ∧ (∀ r ∈ rest, r.length = L) := by
  intro file
  induction file with
  | nil => intro _ row rest h; exact absurd h (by simp [nextRecord])
  | cons hd tl ih =>
      intro hall row rest h
      cases hd with
      | nil =>
          exact ih (fun r hr => hall r (List.mem_cons_of_mem _ hr)) row rest h
      | cons x xs =>
          unfold nextRecord at h
          injection h with h
          injection h with h1 h2
          subst h1
          subst h2
          exact ⟨hall _ (List.mem_cons_self _ _),
            fun r hr => hall r (List.mem_cons_of_mem _ hr)⟩

theorem readPoints_spec (L : ℕ) :
    ∀ (n : ℕ) (file : List (List ℚ)), (∀ row ∈ file, row.length = L) →
      ∀ ps lb rest, readPoints file n = some (ps, lb, rest) →
        (∀ p ∈ ps, p.bands.length = L - 7) ∧
        (∀ b, lb = some b → b.length = L - 7) ∧
        (∀ r ∈ rest, r.length = L) := by
  intro n
  induction n with
  | zero =>
      intro file hall ps lb rest h
      unfold readPoints at h
      injection h with h
      injection h with h1 h2
      injection h2 with h2 h3
      subst h1; subst h2; subst h3
      exact ⟨by simp, by simp, hall⟩
  | succ m ih =>
      intro file hall ps lb rest h
      unfold readPoints at h
      rw [optBind_eq_some] at h
      obtain ⟨⟨row, rest1⟩, hnext, h⟩ := h
      rw [optBind_eq_some] at h
      obtain ⟨p, hp, h⟩ := h
      rw [optBind_eq_some] at h
      obtain ⟨⟨ps2, lb2, rest2⟩, hrec, h⟩ := h
      injection h with h
      injection h with h1 h2
      injection h2 with h2 h3
      subst h1; subst h2; subst h3
      obtain ⟨hrowL, hrest1⟩ := nextRecord_spec L file hall row rest1 hnext
      obtain ⟨hps2, hlb2, hrest2⟩ := ih rest1 hrest1 ps2 lb2 rest2 hrec
      refine ⟨?_, ?_, hrest2⟩
      · intro q hq
        rcases List.mem_cons.mp hq with hh | hh
        · subst hh
          rw [mkPoint_bands row q hp, hrowL]
        · exact hps2 q hh
      · intro b hb
        injection hb with hb
        cases hc : lb2 with
        | some b2 =>
            rw [hc] at hb
            simp only [Option.getD_some] at hb
            subst hb
            exact hlb2 b2 hc
        | none =>
            rw [hc] at hb
            simp only [Option.getD_none] at hb
            subst hb
            simp [hrowL]

theorem readAllRegions_spec (L : ℕ) :
    ∀ (rois : List ROI) (file : List (List ℚ)) (lb0 : Option (List ℚ)),
      (∀ row ∈ file, row.length = L) →
      (∀ roi ∈ rois, roi.points = []) →
      (∀ b, lb0 = some b → b.length = L - 7) →
      ∀ rois2 lb rest, readAllRegions rois file lb0 = some (rois2, lb, rest) →
        (∀ roi2 ∈ rois2, ∀ p ∈ roi2.points, p.bands.length = L - 7) ∧
        (∀ b, lb = some b → b.length = L - 7) := by
  intro rois
  induction rois with
  | nil =>
      intro file lb0 _ _ hlb0 rois2 lb rest h
      unfold readAllRegions at h
      injection h with h
      injection h with h1 h2
      injection h2 with h2 h3
      subst h1; subst h2
      exact ⟨by simp, hlb0⟩
  | cons roi rrest ih =>
      intro file lb0 hall hempty hlb0 rois2 lb rest h
      unfold readAllRegions at h
      rw [optBind_eq_some] at h
      obtain ⟨⟨ps, lb2, file2⟩, hpts, h⟩ := h
      rw [optBind_eq_some] at h
      obtain ⟨⟨rois3, lb3, file3⟩, hrec, h⟩ := h
      injection h with h
      injection h with h1 h2
      injection h2 with h2 h3
      subst h1; subst h2; subst h3
      obtain ⟨hps, hlb2, hfile2⟩ := readPoints_spec L roi.num_points file hall ps lb2 file2 hpts
      have hlb0' : ∀ b, lb2.orElse (fun _ => lb0) = some b → b.length = L - 7 := by
        intro b hb
        cases hc : lb2 with
        | some b2 =>
            rw [hc] at hb
            injection hb with hb
            subst hb
            exact hlb2 b2 hc
        | none =>
            rw [hc] at hb
            exact hlb0 b hb
      obtain ⟨hrois3, hlb3⟩ := ih file2 (lb2.orElse (fun _ => lb0)) hfile2
        (fun r hr => hempty r (List.mem_cons_of_mem _ hr)) hlb0' rois3 lb3 file3 hrec
      refine ⟨?_, hlb3⟩
      intro roi2 hroi2
      rcases List.mem_cons.mp hroi2 with hh | hh
      · subst hh
        intro p hp
        rw [hempty roi (List.mem_cons_self _ _)] at hp
        simp only [List.nil_append] at hp
        exact hps p hp
      · exact hrois3 roi2 hh

theorem mem_dSet {α : Type} (d : List (String × α)) (k : String) (v : α)
    (p : String × α) (hp : p ∈ dSet d k v) : p = (k, v) ∨ p ∈ d := by
  induction d with
  | nil => simpa [dSet] using hp
  | cons kv rest ih =>
      unfold dSet at hp
      by_cases hk : kv.1 = k
      · rw [if_pos hk] at hp
        rcases List.mem_cons.mp hp with hh | hh
        · exact Or.inl hh
        · exact Or.inr (List.mem_cons_of_mem _ hh)
      · rw [if_neg hk] at hp
        rcases List.mem_cons.mp hp with hh | hh
        · exact Or.inr (hh ▸ List.mem_cons_self _ _)
        · rcases ih hh with hh2 | hh2
          · exact Or.inl hh2
          · exact Or.inr (List.mem_cons_of_mem _ hh2)

theorem dGet_mem {α : Type} (d : List (String × α)) (k : String) (v : α)
    (h : dGet d k = some v) : (k, v) ∈ d := by
  induction d with
  | nil => simp [dGet] at h
  | cons kv rest ih =>
      unfold dGet at h
      by_cases hk : kv.1 = k
      · rw [if_pos hk] at h
        injection h with h
        subst h
        subst hk
        exact List.mem_cons_self _ _
      · rw [if_neg hk] at h
        exact List.mem_cons_of_mem _ (ih h)

theorem dSet2_pres (P : ROI → Prop) (acc : List (String × List (String × ROI)))
    (roi : ROI)
    (hacc : ∀ kv ∈ acc, ∀ sv ∈ kv.2, P sv.2) (hroi : P roi) :
    ∀ kv ∈ dSet2 acc roi, ∀ sv ∈ kv.2, P sv.2 := by
  intro kv hkv sv hsv
  unfold dSet2 at hkv
  cases hg : dGet acc roi.name with
  | some inner =>
      rw [hg] at hkv
      rcases mem_dSet _ _ _ _ hkv with hh | hh
      · subst hh
        rcases mem_dSet _ _ _ _ hsv with hh2 | hh2
        · rw [hh2]; exact hroi
        · exact hacc (roi.name, inner) (dGet_mem _ _ _ hg) sv hh2
      · exact hacc kv hh sv hsv
  | none =>
      rw [hg] at hkv
      rcases mem_dSet _ _ _ _ hkv with hh | hh
      · subst hh
        rcases List.mem_cons.mp hsv with hh2 | hh2
        · rw [hh2]; exact hroi
        · exact absurd hh2 (List.not_mem_nil sv)
      · exact hacc kv hh sv hsv

theorem foldl_dSet2_pres (P : ROI → Prop) :
    ∀ (rl : List ROI) (acc : List (String × List (String × ROI))),
      (∀ kv ∈ acc, ∀ sv ∈ kv.2, P sv.2) → (∀ roi ∈ rl, P roi) →
      ∀ kv ∈ rl.foldl dSet2 acc, ∀ sv ∈ kv.2, P sv.2 := by
  intro rl
  induction rl with
  | nil => intro acc hacc _; simpa using hacc
  | cons roi rest ih =>
      intro acc hacc hrl
      simp only [List.foldl_cons]
      exact ih (dSet2 acc roi)
        (dSet2_pres P acc roi hacc (hrl roi (List.mem_cons_self _ _)))
        (fun r hr => hrl r (List.mem_cons_of_mem _ hr))

/-! ## Claim C7: band-count invariant -/

/-- C7 (counterexample): the parser does NOT assert band-count consistency
across records: a file whose two records have 8 and 9 columns parses
without error; the band count is recorded from the LAST record
(`9 − 7 = 2`) while the first point's spectral vector has length 1 ≠ 2. -/
theorem c7_no_consistency_assert :
    read_spectral_data [⟨"a", "1", [], 1, []⟩, ⟨"b", "2", [], 1, []⟩]
      [[1, 2, 3, 4, 5, 6, 7, 8], [1, 2, 3, 4, 5, 6, 7, 8, 9]] =
      some ([("a", [("1", ⟨"a", "1", [], 1, [⟨1, 2, 3, 4, 5, 6, 7, [8]⟩]⟩)]),
             ("b", [("2", ⟨"b", "2", [], 1, [⟨1, 2, 3, 4, 5, 6, 7, [8, 9]⟩]⟩)])], 2) ∧
    ([(8 : ℚ)].length ≠ 2) := by
  exact ⟨by decide, by decide⟩

/-- C7 (amended): the parser computes the band count as `len(row) − 7` of
the LAST record read, records it once, and performs no consistency
assertion at all.  When every record of the spectral section has the same
length `L` (the well-formed-file case), every parsed point's spectral
vector has length `L − 7`, which equals the recorded band count. -/
theorem c7_band_count (rois : List ROI) (file : List (List ℚ)) (L : ℕ)
    (hrows : ∀ row ∈ file, row.length = L)
    (hempty : ∀ roi ∈ rois, roi.points = [])
    (grouped : List (String × List (String × ROI))) (nb : ℕ)
    (hok : read_spectral_data rois file = some (grouped, nb)) :
    nb = L - 7 ∧
    ∀ kv ∈ grouped, ∀ sv ∈ kv.2, ∀ p ∈ sv.2.points, p.bands.length = nb := by
  unfold read_spectral_data at hok
  rw [optBind_eq_some] at hok
  obtain ⟨⟨rois2, lb, rest⟩, hread, hok⟩ := hok
  rw [optBind_eq_some] at hok
  obtain ⟨lastBands, hlb, hok⟩ := hok
  injection hok with hok
  injection hok with h1 h2
  obtain ⟨hrois2, hlbLen⟩ := readAllRegions_spec L rois file none hrows hempty
    (fun b hb => Option.noConfusion hb) rois2 lb rest hread
  have hnb : nb = L - 7 := by rw [← h2]; exact hlbLen lastBands hlb
  refine ⟨hnb, ?_⟩
  intro kv hkv sv hsv p hp
  rw [hnb]
  exact foldl_dSet2_pres (fun roi => ∀ q ∈ roi.points, q.bands.length = L - 7)
    rois2 [] (by simp) hrois2 kv (h1 ▸ hkv) sv hsv p hp

/-- C7 (witness): a well-formed two-region file with 8 columns per record:
band count 1, and every parsed point has a 1-band vector. -/
theorem c7_band_count_witness :
    (∀ row ∈ [[(1 : ℚ), 2, 3, 4, 5, 6, 7, 8], [9, 8, 7, 6, 5, 4, 3, 2]],
      row.length = 8) ∧
    (∀ roi ∈ [(⟨"a", "1", [], 1, []⟩ : ROI), ⟨"b", "2", [], 1, []⟩],
      roi.points = []) ∧
    ((1 : ℕ) = 8 - 7 ∧
      ∀ kv ∈ [("a", [("1", (⟨"a", "1", [], 1, [⟨1, 2, 3, 4, 5, 6, 7, [8]⟩]⟩ : ROI))]),
              ("b", [("2", (⟨"b", "2", [], 1, [⟨9, 8, 7, 6, 5, 4, 3, [2]⟩]⟩ : ROI))])],
        ∀ sv ∈ kv.2, ∀ p ∈ sv.2.points, p.bands.length = 1) :=
  ⟨by decide, by decide,
    c7_band_count [⟨"a", "1", [], 1, []⟩, ⟨"b", "2", [], 1, []⟩]
      [[1, 2, 3, 4, 5, 6, 7, 8], [9, 8, 7, 6, 5, 4, 3, 2]] 8
      (by decide) (by decide) _ 1 (by decide)⟩

/-! ## Name-splitting lemmas -/

theorem underscoreSplit_append (a b : List Char) (ha : '_' ∉ a) :
    underscoreSplit (a ++ '_' :: b) = a :: underscoreSplit b := by
  induction a with
  | nil => simp [underscoreSplit]
  | cons c a2 ih =>
      have hc : ¬ (c = '_') := fun hh => ha (hh ▸ List.mem_cons_self _ _)
      simp only [List.cons_append, underscoreSplit, if_neg hc, List.append_eq]
      rw [ih (fun hh => ha (List.mem_cons_of_mem _ hh))]

theorem underscoreSplit_head (b : List Char) :
    ∃ gs, underscoreSplit b = b.takeWhile (fun c => c != '_') :: gs := by
  induction b with
  | nil => exact ⟨[], rfl⟩
  | cons c r ih =>
      by_cases hc : c = '_'
      · subst hc
        refine ⟨underscoreSplit r, ?_⟩
        simp [underscoreSplit, List.takeWhile_cons]
      · obtain ⟨gs, hgs⟩ := ih
        refine ⟨gs, ?_⟩
        simp only [underscoreSplit, if_neg hc, hgs, List.takeWhile_cons]
        simp [hc]

theorem underscoreSplit_of_not_mem (l : List Char) (h : '_' ∉ l) :
    underscoreSplit l = [l] := by
  induction l with
  | nil => rfl
  | cons c r ih =>
      have hc : ¬ (c = '_') := fun hh => h (hh ▸ List.mem_cons_self _ _)
      simp only [underscoreSplit, if_neg hc,
        ih (fun hh => h (List.mem_cons_of_mem _ hh))]

theorem digitSplit_eq_cons (l : List Char) (d0 : Char) (tail : List Char)
    (hdrop : l.dropWhile (fun c => !c.isDigit) = d0 :: tail) :
    digitSplit l = l.takeWhile (fun c => !c.isDigit) ::
      (d0 :: tail.takeWhile Char.isDigit) ::
        digitSplit (tail.dropWhile Char.isDigit) := by
  rw [digitSplit.eq_def]
  split
  · rename_i heq
    rw [hdrop] at heq
    exact absurd heq (by simp)
  · rename_i d tail2 heq
    rw [hdrop] at heq
    injection heq with h1 h2
    subst h1
    subst h2
    rfl

theorem digitSplit_shape (a r : List Char) (d0 : Char) (drest : List Char)
    (ha : ∀ c ∈ a, c.isDigit = false)
    (hd : ∀ c ∈ d0 :: drest, c.isDigit = true)
    (hr : r = [] ∨ ∃ c0 rr, r = c0 :: rr ∧ c0.isDigit = false) :
    ∃ gs, digitSplit (a ++ (d0 :: drest) ++ r) = a :: (d0 :: drest) :: gs := by
  have ha2 : ∀ c ∈ a, (!c.isDigit) = true := by
    intro c hc
    rw [ha c hc]
    rfl
  have hd0 : d0.isDigit = true := hd d0 (List.mem_cons_self _ _)
  have hdrop : (a ++ (d0 :: drest) ++ r).dropWhile (fun c => !c.isDigit) =
      d0 :: (drest ++ r) := by
    rw [List.append_assoc, List.dropWhile_append_of_pos ha2]
    simp only [List.cons_append]
    rw [List.dropWhile_cons_of_neg (by simp [hd0])]
  have htake : (a ++ (d0 :: drest) ++ r).takeWhile (fun c => !c.isDigit) = a := by
    rw [List.append_assoc, List.takeWhile_append_of_pos ha2]
    simp only [List.cons_append]
    rw [List.takeWhile_cons_of_neg (by simp [hd0])]
    simp
  have htake2 : (drest ++ r).takeWhile Char.isDigit = drest := by
    rw [List.takeWhile_append_of_pos
      (fun c hc => hd c (List.mem_cons_of_mem _ hc))]
    rcases hr with hre | ⟨c0, rr, hre, hc0⟩
    · simp [hre]
    · rw [hre, List.takeWhile_cons_of_neg (by simp [hc0])]
      simp
  refine ⟨digitSplit ((drest ++ r).dropWhile Char.isDigit), ?_⟩
  rw [digitSplit_eq_cons _ _ _ hdrop, htake, htake2]

/-- Evaluation of `extract_name` once the last whitespace token is known. -/
theorem extract_name_token (line : List Char) (tok : List Char)
    (htok : (wsTokens line).getLast? = some tok) :
    extract_name line = extract_from_token tok := by
  unfold extract_name
  rw [htok]

/-! ## Claim C8: region-name splitting -/

/-- C8 (counterexample): for a token with two underscores the code does
NOT split at the first underscore into name and remaining sub-name: on the
name line `"; ROI name: rock_2_3"` it returns sub-name `"2"` — the text
between the first and second underscores — discarding `"_3"`, not
`"2_3"` as the claim's "split at the first underscore" states. -/
theorem c8_second_underscore_discarded :
    extract_name ("; ROI name: rock_2_3".toList) =
      .ok ("rock".toList, "2".toList) ∧
    (("rock".toList, "2".toList) ≠ ("rock".toList, "2_3".toList)) := by
  exact ⟨by decide, by decide⟩

/-- C8 (amended): the parser takes the last whitespace-delimited token of
the name line; if the token contains an underscore, the name is the text
before the first underscore and the sub-name the text between the first
and the second underscore (text after a second underscore is discarded);
otherwise the token is split at the first digit run — e.g. "rock23"
yields ("rock", "23") — with the name the text before the digits and the
sub-name the digit run itself. -/
theorem c8_extract_name_split (line tok : List Char)
    (htok : (wsTokens line).getLast? = some tok) :
    (∀ a b, tok = a ++ '_' :: b → '_' ∉ a →
      extract_name line = .ok (a, b.takeWhile (fun c => c != '_'))) ∧
    (∀ a d0 drest r, tok = a ++ (d0 :: drest) ++ r → '_' ∉ tok →
      (∀ c ∈ a, c.isDigit = false) → (∀ c ∈ d0 :: drest, c.isDigit = true) →
      (r = [] ∨ ∃ c0 rr, r = c0 :: rr ∧ c0.isDigit = false) →
      extract_name line = .ok (a, d0 :: drest)) := by
  constructor
  · intro a b hsplit ha
    rw [extract_name_token line tok htok]
    unfold extract_from_token
    rw [hsplit, underscoreSplit_append a b ha]
    obtain ⟨gs, hgs⟩ := underscoreSplit_head b
    rw [hgs]
  · intro a d0 drest r hsplit hnou ha hd hr
    rw [extract_name_token line tok htok]
    unfold extract_from_token
    rw [underscoreSplit_of_not_mem tok hnou]
    obtain ⟨gs, hgs⟩ := digitSplit_shape a r d0 drest ha hd hr
    rw [hsplit, hgs]

/-- C8 (witness): the name line `"region rock_r43"`: last token
`rock_r43`, split into ("rock", "r43"). -/
theorem c8_extract_name_split_witness :
    ((wsTokens "region rock_r43".toList).getLast? =
      some "rock_r43".toList) ∧
    ((∀ a b, "rock_r43".toList = a ++ '_' :: b → '_' ∉ a →
      extract_name "region rock_r43".toList =
        .ok (a, b.takeWhile (fun c => c != '_'))) ∧
    (∀ a d0 drest r, "rock_r43".toList = a ++ (d0 :: drest) ++ r →
      '_' ∉ "rock_r43".toList →
      (∀ c ∈ a, c.isDigit = false) → (∀ c ∈ d0 :: drest, c.isDigit = true) →
      (r = [] ∨ ∃ c0 rr, r = c0 :: rr ∧ c0.isDigit = false) →
      extract_name "region rock_r43".toList = .ok (a, d0 :: drest))) :=
  ⟨by decide, c8_extract_name_split "region rock_r43".toList
    "rock_r43".toList (by decide)⟩

/-! ## Claim C2: balanced-sampler retention probabilities -/

/-- C2: the code does NOT derive the retention probabilities the spec
states (the code itself carries the comment "FIXME: the probability
adjustment is incorrect").  On a dataset with target `A` of 10 points and
100 background points, with `ratio[A] = 1/10` and `ratio[background] = 1`:
the spec formula gives
`p[A] = clamp(feasibleBackground * ratio[A] / histogram[A]) =
clamp(100 * (1/10) / 10) = 1`, but the code computes
`p[A] = ratio[A] / background_probability = (1/10) / 1 = 1/10` — it
divides the ratio by the background probability instead.  Both background
probabilities agree (`feasibleBackground / histogram[background] = 1`). -/
theorem c2_probability_formula_mismatch :
    load_limited_probabilities [⟨"A", "1", [], 10, []⟩, ⟨"B", "1", [], 100, []⟩]
      ["A", "background"] [("A", 1/10), ("background", 1)] =
      .ok [("background", 1), ("A", 1/10)] ∧
    spec_probability [("A", 10), ("background", 100)]
      [("A", (1 : ℚ)/10), ("background", 1)] ["A", "background"] "A" = 1 ∧
    dGet [("background", (1 : ℚ)), ("A", 1/10)] "A" = some (1/10) ∧
    ((1 : ℚ)/10 ≠ 1) := by
  refine ⟨?_, ?_, rfl, by norm_num⟩
  · have hff : find_feasible_sizes
        [(⟨"A", "1", [], 10, []⟩ : ROI), ⟨"B", "1", [], 100, []⟩]
        [("A", (1 : ℚ)/10), ("background", 1)] =
        .ok [("A", 10), ("background", 100)] := by
      have hh : get_histogram [(⟨"A", "1", [], 10, []⟩ : ROI), ⟨"B", "1", [], 100, []⟩]
          ([("A", (1 : ℚ)/10), ("background", 1)].map Prod.fst) true =
          .ok [("A", 10), ("background", 100)] := by decide
      unfold find_feasible_sizes
      rw [hh]
      simp [exceptBind_ok, exceptBind_err, exceptPure, List.map_cons, List.map_nil,
        pyTrunc_floor, dSet, mapME, foldME, dGetE, dGet, pyMin, List.min?]
      norm_num
    have hh2 : get_histogram [(⟨"A", "1", [], 10, []⟩ : ROI), ⟨"B", "1", [], 100, []⟩]
        ["A", "background"] true = .ok [("A", 10), ("background", 100)] := by decide
    have hlow1 : (pyLower "A" ≠ "background") = True := by simp; decide
    have hlow2 : (pyLower "background" ≠ "background") = False := by simp; decide
    unfold load_limited_probabilities
    rw [hh2, hff]
    simp [exceptBind_ok, exceptBind_err, exceptPure, pyTrunc_floor, dSet,
      mapME, foldME, dGetE, dGet, hlow1, hlow2]
    norm_num
  · simp [spec_probability, spec_feasibleBackground, dGet]
    norm_num
